import Mathlib

/-!
Shallow embedding of the `pycontainer::pyvec<T>` container (header `pyvec.hpp`).

The container stores its elements in a list of growable chunks
(`std::vector<std::vector<T>>`, shared between containers through
`shared_ptr`) and keeps one raw pointer per logical position in the
handle table `_ptrs`.  We model

  * a chunk as its element list together with its reserved capacity and a
    buffer identifier `bufId`.  A fresh `bufId` is drawn from a counter
    whenever storage is (re)allocated, so a C++ element address is modelled
    by the pair `Addr = (bufId, offset)`.  Appending to a `std::vector`
    whose size is below its reserved capacity does not move the buffer, so
    pushes keep `bufId`; `std::vector::shrink_to_fit` on a vector whose
    capacity exceeds its size reallocates the buffer, which we model by a
    fresh `bufId`;
  * the state shared through `shared_ptr` members (`_resources`,
    `_capacity`) as `Heap`, and the per-container state (`_ptrs`,
    `_chunk_pivot`, `_last_chunk`) as `Loc`.  The cached `_last_chunk`
    pointer is modelled by the index of the cached chunk in `_resources`;
  * `size_t` arithmetic on 64-bit machine words via `% 2^64` where
    wrap-around can occur (`reserve`, slice-index casts), and C++ signed
    division/remainder (truncation toward zero) via `Int.tdiv`/`Int.tmod`;
  * C++ exceptions via `Except PyErr`.
-/

namespace PyvecModel

/-- Number of values of the 64-bit machine words `size_t`/`ptrdiff_t`. -/
def U64 : Nat := 2 ^ 64

/-- `static constexpr size_t min_chunk_size = 64;` -/
def min_chunk_size : Nat := 64

/-- Conversion of a signed value to `size_t` (C++: modulo `2^64`). -/
def toU64 (z : Int) : Nat := (z % (U64 : Int)).toNat

/-- Conversion of a `size_t` value to `ptrdiff_t`
(two's-complement reinterpretation of the low 64 bits). -/
def toI64 (n : Nat) : Int :=
  if n % U64 < 2 ^ 63 then ((n % U64 : Nat) : Int) else ((n % U64 : Nat) : Int) - (U64 : Int)

/-- The error taxonomy of the container:
`std::out_of_range`, `std::invalid_argument` (a value-not-found
`std::invalid_argument` is tagged `notFound` for readability), and the
`std::length_error` that `std::vector` itself raises on a size request
beyond `max_size()`. -/
inductive PyErr where
  | outOfRange
  | invalidArgument
  | notFound
  | lengthError
deriving Repr, DecidableEq

/-- One chunk: a `std::vector<T>` inside `*_resources`.  `data` is its
contents, `cap` its reserved capacity, `bufId` identifies the current
heap buffer (fresh on every (re)allocation). -/
structure Chunk (α : Type) where
  data : List α
  cap : Nat
  bufId : Nat
deriving Repr, DecidableEq

/-- A C++ element address: which heap buffer, and the offset inside it. -/
structure Addr where
  bufId : Nat
  off : Nat
deriving Repr, DecidableEq

/-- The state shared through `shared_ptr` members: `_resources` (the chunk
list) and `*_capacity` (the running capacity sum); `nextBuf` is the
allocator's supply of fresh buffer identifiers. -/
structure Heap (α : Type) where
  resources : List (Chunk α)
  capacity : Nat
  nextBuf : Nat
deriving Repr, DecidableEq

/-- The per-container state: the handle table `_ptrs`, the scan pivot
`_chunk_pivot`, and the cached last used chunk `_last_chunk` (modelled by
its index in `_resources`; `none` is `nullptr`). -/
structure Loc where
  ptrs : List Addr
  chunkPivot : Nat
  lastChunk : Option Nat
deriving Repr, DecidableEq

/-- The value a `T*` with `nullptr`-like content stands for after
`_ptrs.resize` value-initializes new slots; every modelled operation
overwrites such slots before they can be read. -/
def nullAddr : Addr := ⟨0, 0⟩

/-- `chunk.capacity() - chunk.size()` (sizes never exceed capacities in
reachable states, so `Nat` subtraction is exact). -/
def chunkRemaining (c : Chunk α) : Nat := c.cap - c.data.length

/-- `pyvec::new_chunk(n)`: append an empty chunk with `n` reserved slots
and add `n` to `*_capacity` (a `size_t`, so the sum wraps modulo `2^64`);
returns the heap and the new chunk's index. -/
def new_chunk (h : Heap α) (n : Nat) : Heap α × Nat :=
  (⟨h.resources ++ [⟨[], n, h.nextBuf⟩], (h.capacity + n) % U64, h.nextBuf + 1⟩,
   h.resources.length)

/-- `chunk.push_back(x)` on chunk `j` (within reserved capacity, so the
buffer does not move); returns the heap and the address of the new
element (`&chunk.back()`). -/
def heapPush (h : Heap α) (j : Nat) (x : α) : Heap α × Addr :=
  match h.resources.get? j with
  | some c =>
      (⟨h.resources.set j ⟨c.data ++ [x], c.cap, c.bufId⟩, h.capacity, h.nextBuf⟩,
       ⟨c.bufId, c.data.length⟩)
  | none => (h, nullAddr)

/-- Dereference an element address: the element at offset `off` of the
live buffer with identifier `bufId`, if any (a dangling pointer
dereferences to `none`). -/
def derefAddr (h : Heap α) (a : Addr) : Option α :=
  match h.resources.find? (fun c => c.bufId == a.bufId) with
  | some c => c.data.get? a.off
  | none => none

/-- The scan loop of `pyvec::suitable_chunk`, walking the chunk suffix
that starts at absolute index `i` with the `update` flag and current
pivot: advance the pivot past full chunks (while `update` holds), stop at
the first chunk whose remaining capacity is at least `n`, and freeze
pivot updates after a partially filled chunk.  Returns the found chunk
index (if any) and the final pivot. -/
def scan_from (n : Nat) : List (Chunk α) → Nat → Bool → Nat → Option Nat × Nat
  | [], _, _, pivot => (none, pivot)
  | c :: rest, i, update, pivot =>
      let remaining := chunkRemaining c
      let pivot' := if update && remaining == 0 then i + 1 else pivot
      if remaining ≥ n then (some i, pivot')
      else scan_from n rest (i + 1) (if remaining > 0 then false else update) pivot'

/-- The scan of `pyvec::suitable_chunk` over the chunks from
`_chunk_pivot` to the end. -/
def scan_chunks (res : List (Chunk α)) (n pivot : Nat) : Option Nat × Nat :=
  scan_from n (res.drop pivot) pivot true pivot

/-- The slow path of `pyvec::suitable_chunk`: scan from the pivot; if no
chunk has room, allocate a new chunk of
`max(expected_size, max(*_capacity, min_chunk_size))`; update the pivot
and cache the chosen chunk. -/
def suitable_chunk_scan (h : Heap α) (loc : Loc) (n : Nat) :
    Except PyErr (Heap α × Loc × Nat) :=
  match scan_chunks h.resources n loc.chunkPivot with
  | (some j, pivot') => .ok (h, ⟨loc.ptrs, pivot', some j⟩, j)
  | (none, pivot') =>
      let expanded := max n (max h.capacity min_chunk_size)
      let (h', j) := new_chunk h expanded
      .ok (h', ⟨loc.ptrs, pivot', some j⟩, j)

/-- `pyvec::suitable_chunk(expected_size)`: reject `0`; return the cached
last chunk immediately when it has room (pivot and cache untouched);
otherwise take the scan path. -/
def suitable_chunk (h : Heap α) (loc : Loc) (n : Nat) :
    Except PyErr (Heap α × Loc × Nat) :=
  if n = 0 then .error .invalidArgument
  else
    match loc.lastChunk with
    | some j =>
        match h.resources.get? j with
        | some c =>
            if chunkRemaining c ≥ n then .ok (h, loc, j)
            else suitable_chunk_scan h loc n
        | none => suitable_chunk_scan h loc n
    | none => suitable_chunk_scan h loc n

/-- `pyvec::insert_empty(pos, count)`: bounds-check `idx ≤ size`, grow the
handle table by `count` (new slots value-initialized), then shift the
handles at positions `≥ idx` right by `count` from the end backward.  The
gap `[idx, idx+count)` keeps its pre-shift contents (stale handles /
null), which every caller overwrites. -/
def insert_empty (loc : Loc) (idx count : Nat) : Except PyErr Loc :=
  if idx > loc.ptrs.length then .error .outOfRange
  else
    .ok ⟨loc.ptrs.take idx ++
          (loc.ptrs.drop idx ++ List.replicate count nullAddr).take count ++
          loc.ptrs.drop idx,
         loc.chunkPivot, loc.lastChunk⟩

/-- The element-filling loop shared by the `insert` overloads and by
unit-step `setitem`: for each value, `chunk.push_back` into chunk `j` and
store the new element's address at the next handle position. -/
def fillRange (h : Heap α) (j : Nat) (ptrs : List Addr) (pos : Nat) :
    List α → Heap α × List Addr
  | [] => (h, ptrs)
  | x :: xs =>
      let (h', a) := heapPush h j x
      fillRange h' j (ptrs.set pos a) (pos + 1) xs

/-- `pyvec::insert(pos, count, value)`: on `count == 0` return `pos`
unchanged (before any allocation or bounds check on the gap), else open a
gap and fill it with copies of `value`.  The returned `Nat` is the index
the returned iterator points at. -/
def insertCount (h : Heap α) (loc : Loc) (idx count : Nat) (x : α) :
    Except PyErr (Heap α × Loc × Nat) :=
  if count = 0 then .ok (h, loc, idx)
  else do
    let loc1 ← insert_empty loc idx count
    let (h1, loc2, j) ← suitable_chunk h loc1 count
    let (h2, ptrs2) := fillRange h1 j loc2.ptrs idx (List.replicate count x)
    .ok (h2, ⟨ptrs2, loc2.chunkPivot, loc2.lastChunk⟩, idx)

/-- `pyvec::insert(pos, first, last)`: `count = distance(first, last)`;
on `count == 0` return `pos` unchanged, else open a gap and fill it with
copies of the range's elements in order. -/
def insertRange (h : Heap α) (loc : Loc) (idx : Nat) (xs : List α) :
    Except PyErr (Heap α × Loc × Nat) :=
  if xs.length = 0 then .ok (h, loc, idx)
  else do
    let loc1 ← insert_empty loc idx xs.length
    let (h1, loc2, j) ← suitable_chunk h loc1 xs.length
    let (h2, ptrs2) := fillRange h1 j loc2.ptrs idx xs
    .ok (h2, ⟨ptrs2, loc2.chunkPivot, loc2.lastChunk⟩, idx)

/-- `pyvec::push_back(value)`. -/
def push_back (h : Heap α) (loc : Loc) (x : α) : Except PyErr (Heap α × Loc) := do
  let (h1, loc1, j) ← suitable_chunk h loc 1
  let (h2, a) := heapPush h1 j x
  .ok (h2, ⟨loc1.ptrs ++ [a], loc1.chunkPivot, loc1.lastChunk⟩)

/-- `pyvec::pop_back()`: `std::out_of_range` on an empty container, else
drop the last handle (the element stays allocated in its chunk). -/
def pop_back (loc : Loc) : Except PyErr Loc :=
  if loc.ptrs.isEmpty then .error .outOfRange
  else .ok ⟨loc.ptrs.dropLast, loc.chunkPivot, loc.lastChunk⟩

/-- `pyvec::pypos(index)`: resolve a Python index (negative counts from
the end); `std::out_of_range` when the resolved position is outside
`[0, size)`. -/
def pypos (len : Nat) (i : Int) : Except PyErr Nat :=
  let ans := if i < 0 then i + len else i
  if ans < 0 ∨ ans ≥ (len : Int) then .error .outOfRange else .ok ans.toNat

/-- `pyvec::pop(index)` (default `index = -1`): resolve the position,
alias the element (`share`), erase its handle; returns the element's
address (the content of the returned `shared_ptr`). -/
def pop (h : Heap α) (loc : Loc) (i : Int) : Except PyErr (Heap α × Loc × Addr) := do
  let p ← pypos loc.ptrs.length i
  .ok (h, ⟨loc.ptrs.take p ++ loc.ptrs.drop (p + 1), loc.chunkPivot, loc.lastChunk⟩,
       loc.ptrs.getD p nullAddr)

/-- `std::vector<T*>::max_size()` of the handle table: the largest size
request `_ptrs.reserve` accepts (64-bit `std::vector` of 8-byte pointers:
`PTRDIFF_MAX / sizeof(T*) = 2^61 - 1`); any larger request throws
`std::length_error` before any effect (the strong guarantee of
`vector::reserve`). -/
def ptrs_max_size : Nat := 2 ^ 61 - 1

/-- `pyvec::reserve(new_cap)`: `delta = new_cap - capacity()` in `size_t`
arithmetic (wrapping modulo `2^64`); when `delta > 0`, first
`_ptrs.reserve(max(new_cap, _ptrs.size() + delta))` — the sum again
wrapping `size_t` arithmetic — which throws `std::length_error` and
leaves every member unchanged when the request exceeds
`_ptrs.max_size()`, and changes no handle otherwise; then allocate one
new chunk of `max(min_chunk_size, delta)`.  `ptrsLen` is `_ptrs.size()`. -/
def reserve (h : Heap α) (ptrsLen newCap : Nat) : Except PyErr (Heap α) :=
  let delta := (((newCap : Int) - (h.capacity : Int)) % (U64 : Int)).toNat
  if delta > 0 then
    if ptrs_max_size < max newCap ((ptrsLen + delta) % U64) then .error .lengthError
    else .ok (new_chunk h (max min_chunk_size delta)).1
  else .ok h

/-- The per-chunk effect of `pyvec::shrink_to_fit`: each
`chunk.shrink_to_fit()` whose capacity exceeds its size reallocates the
chunk's buffer to exactly its size (fresh `bufId`); a tight chunk is left
alone.  Returns the rewritten chunks and the next fresh buffer id. -/
def shrinkChunks (next : Nat) : List (Chunk α) → List (Chunk α) × Nat
  | [] => ([], next)
  | c :: cs =>
      if c.data.length < c.cap then
        let (cs', next') := shrinkChunks (next + 1) cs
        (⟨c.data, c.data.length, next⟩ :: cs', next')
      else
        let (cs', next') := shrinkChunks next cs
        (c :: cs', next')

/-- `pyvec::shrink_to_fit()`: trim the handle table's spare capacity (not
observable on the handles), reset `*_capacity` to `0`, then shrink every
chunk and re-accumulate the capacities. -/
def shrink_to_fit (h : Heap α) : Heap α :=
  let (res', next') := shrinkChunks h.nextBuf h.resources
  ⟨res', (res'.map (fun c => c.cap)).sum, next'⟩

/-- `pyvec::setitem(index, value)`: resolve the position, allocate a copy
of `value` in a suitable chunk, and overwrite only the handle at that
position. -/
def setitem_index (h : Heap α) (loc : Loc) (i : Int) (x : α) :
    Except PyErr (Heap α × Loc) := do
  let p ← pypos loc.ptrs.length i
  let (h1, loc1, j) ← suitable_chunk h loc 1
  let (h2, a) := heapPush h1 j x
  .ok (h2, ⟨loc1.ptrs.set p a, loc1.chunkPivot, loc1.lastChunk⟩)

/-- `pyvec::copy()` (shallow): the new container shares `_resources` and
`_capacity` (the `Heap`), copies the handle table and the pivot, and
starts with `_last_chunk = nullptr`. -/
def copyLoc (loc : Loc) : Loc := ⟨loc.ptrs, loc.chunkPivot, none⟩

/-- `pycontainer::slice`: the user-facing Python slice descriptor with
optional `start`, `stop`, `step`. -/
structure PySlice where
  start? : Option Int
  stop? : Option Int
  step? : Option Int
deriving Repr, DecidableEq

/-- `pyvec::slice_native`: the normalized slice
`{size_t start; size_t num_steps; ptrdiff_t step;}` — `start` stores the
`size_t` cast of the (possibly `-1`) signed start index. -/
structure SliceNative where
  start : Nat
  numSteps : Nat
  step : Int
deriving Repr, DecidableEq

/-- `pyvec::build_slice(t_slice)` for a container of size `size`:
Python-style normalization with C++ truncating division.  `step` defaults
to `1`; `step == 0` is `std::invalid_argument` before any clamping.  For
`step > 0`, `start` defaults to `0` and `stop` to `size`, negative
indices are adjusted by `+size` then clamped below at `0`, non-negative
ones clamped above at `size` (at `size - 1` for `start` with negative
`step`), and `num_steps = max(0, (stop-start-1)/step + 1)`.  For
`step < 0`, `start` defaults to `size-1` and clamps into `[-1, size-1]`,
`stop` defaults to the sentinel `-1`, and
`num_steps = max(0, (start-stop-1)/(-step) + 1)`. -/
def build_slice (s : PySlice) (size : Nat) : Except PyErr SliceNative :=
  let step := s.step?.getD 1
  let vSize : Int := (size : Int)
  if step = 0 then .error .invalidArgument
  else if step > 0 then
    let start0 := s.start?.getD 0
    let start := if start0 < 0 then max 0 (start0 + vSize) else min start0 vSize
    let stop0 := s.stop?.getD vSize
    let stop := if stop0 < 0 then max 0 (stop0 + vSize) else min stop0 vSize
    let numSteps := max 0 ((stop - start - 1).tdiv step + 1)
    .ok ⟨toU64 start, numSteps.toNat, step⟩
  else
    let start0 := s.start?.getD (vSize - 1)
    let start := if start0 < 0 then max (-1) (start0 + vSize) else min start0 (vSize - 1)
    let stop :=
      match s.stop? with
      | some st => if st < 0 then max (-1) (st + vSize) else min st vSize
      | none => -1
    let numSteps := max 0 ((start - stop - 1).tdiv (-step) + 1)
    .ok ⟨toU64 start, numSteps.toNat, step⟩

/-- The deletion test of `pyvec::delitem(slice)`: position `i` is dropped
when `delta % step == 0 && delta / step < num_steps`, where
`delta = i - (ptrdiff_t)start` and the signed quotient is converted to
`size_t` for the comparison with `num_steps`. -/
def delSelected (s : SliceNative) (i : Nat) : Bool :=
  let delta : Int := (i : Int) - toI64 s.start
  delta.tmod s.step == 0 && toU64 (delta.tdiv s.step) < s.numSteps

/-- The handle-table rewrite of `pyvec::delitem(slice)`: if
`num_steps == 0` return unchanged, else keep, in order, exactly the
positions the deletion test does not select. -/
def delitem_ptrs (s : SliceNative) (ptrs : List β) : List β :=
  if s.numSteps = 0 then ptrs
  else (List.range ptrs.length).filterMap
    (fun i => if delSelected s i then none else ptrs.get? i)

/-- `pyvec::delitem(t_slice)`: normalize, then rewrite the handle
table. -/
def delitem_slice (loc : Loc) (t : PySlice) : Except PyErr Loc := do
  let s ← build_slice t loc.ptrs.length
  .ok ⟨delitem_ptrs s loc.ptrs, loc.chunkPivot, loc.lastChunk⟩

/-- The strided overwrite loop of non-unit-step `setitem`: push a copy of
each value into chunk `j`, store its address at the `size_t` position
`pivot`, then advance `pivot += step` in wrapping `size_t` arithmetic. -/
def fillStride (h : Heap α) (j piv : Nat) (step : Int) :
    List α → List Addr → Heap α × List Addr
  | [], ptrs => (h, ptrs)
  | x :: xs, ptrs =>
      let (h', a) := heapPush h j x
      fillStride h' j (toU64 ((piv : Int) + step)) step xs (ptrs.set piv a)

/-- `pyvec::setitem(t_slice, first, last)`: an empty replacement sequence
delegates to `delitem`.  For `step == 1` the sequence may have any
length: with `delta = len - num_steps`, open `delta` slots right after
the slice (`delta > 0`), or erase the surplus trailing slots of the slice
region (`delta < 0`), then overwrite `[start, start+len)` with freshly
allocated copies.  For `step != 1` the length must equal `num_steps`
(else `std::invalid_argument`); overwrite `start, start+step, …`. -/
def setitem_slice (h : Heap α) (loc : Loc) (t : PySlice) (xs : List α) :
    Except PyErr (Heap α × Loc) := do
  let s ← build_slice t loc.ptrs.length
  if xs.length = 0 then
    let loc' ← delitem_slice loc t
    .ok (h, loc')
  else if s.step = 1 then
    let delta : Int := (xs.length : Int) - (s.numSteps : Int)
    let loc1 ←
      if delta > 0 then insert_empty loc (s.start + s.numSteps) delta.toNat
      else if delta < 0 then
        .ok (⟨loc.ptrs.take (s.start + xs.length) ++ loc.ptrs.drop (s.start + s.numSteps),
              loc.chunkPivot, loc.lastChunk⟩ : Loc)
      else .ok loc
    let (h1, loc2, j) ← suitable_chunk h loc1 xs.length
    let (h2, ptrs2) := fillRange h1 j loc2.ptrs s.start xs
    .ok (h2, ⟨ptrs2, loc2.chunkPivot, loc2.lastChunk⟩)
  else if s.numSteps = xs.length then
    let (h1, loc1, j) ← suitable_chunk h loc s.numSteps
    let (h2, ptrs2) := fillStride h1 j s.start s.step xs loc1.ptrs
    .ok (h2, ⟨ptrs2, loc1.chunkPivot, loc1.lastChunk⟩)
  else .error .invalidArgument

/-- `pyvec::operator==`: sizes must agree, then the loop fails on the
first pair with `*it != *it2` (stated on the dereferenced element
sequences). -/
def pyvec_eq [DecidableEq α] (a b : List α) : Bool :=
  if a.length ≠ b.length then false
  else (List.zip a b).all (fun p => !(decide (p.1 ≠ p.2)))

/-- `pyvec::operator<`: walk the common prefix; the first position where
one element is `<` the other decides; otherwise `size() < other.size()`
(stated on the dereferenced element sequences). -/
def pyvec_lt [LinearOrder α] : List α → List α → Bool
  | [], b => decide (0 < b.length)
  | _ :: _, [] => false
  | x :: xs, y :: ys =>
      if x < y then true else if y < x then false else pyvec_lt xs ys

/-- Collect the observed value of every element of the container, in
logical order (what `pyvec::collect()` copies out; `none` marks a
dangling handle). -/
def collectVals (h : Heap α) (loc : Loc) : List (Option α) :=
  loc.ptrs.map (derefAddr h)

/-- An address that points at a live element slot of some chunk. -/
def liveAddr (h : Heap α) (a : Addr) : Prop :=
  ∃ c ∈ h.resources, c.bufId = a.bufId ∧ a.off < c.data.length

/-- Well-formedness of a heap, true of every state the C++ code can
reach: buffer identifiers are distinct and below the fresh counter, and
no chunk overfills its reserved capacity. -/
def HeapWF (h : Heap α) : Prop :=
  (h.resources.map (fun c => c.bufId)).Nodup ∧
  (∀ c ∈ h.resources, c.bufId < h.nextBuf) ∧
  (∀ c ∈ h.resources, c.data.length ≤ c.cap)

/-- Well-formedness of a container view: every handle is live, the scan
pivot is at most the chunk count, and the cached chunk index (if any) is
in range. -/
def LocWF (h : Heap α) (loc : Loc) : Prop :=
  (∀ a ∈ loc.ptrs, liveAddr h a) ∧
  loc.chunkPivot ≤ h.resources.length ∧
  (∀ j ∈ loc.lastChunk, j < h.resources.length)

instance (h : Heap α) (a : Addr) : Decidable (liveAddr h a) := by
  unfold liveAddr; infer_instance

instance [DecidableEq α] (h : Heap α) : Decidable (HeapWF h) := by
  unfold HeapWF; infer_instance

instance [DecidableEq α] (h : Heap α) (loc : Loc) : Decidable (LocWF h loc) := by
  unfold LocWF; infer_instance

/-- The state built by the initializer-list / range constructor
(`assign(first, last)`): for a non-empty list, one tight chunk holding
all elements (`emplace_chunk(first, last)` reserves exactly the length)
and handles pointing at its slots in order; for the empty list, an
initialized but chunkless state. -/
def fromList (l : List α) : Heap α × Loc :=
  if l.length = 0 then (⟨[], 0, 0⟩, ⟨[], 0, none⟩)
  else
    (⟨[⟨l, l.length, 0⟩], l.length, 1⟩,
     ⟨(List.range l.length).map (fun i => ⟨0, i⟩), 0, none⟩)

/-- The container `[1, 2, 3]` used to instantiate frame theorems. -/
def exVec : Heap Int × Loc := fromList [1, 2, 3]

/-!  ## Heap lemmas: pushes and fresh chunks never move existing elements -/

/-- Buffer identifiers of the chunk list are distinct. -/
def NodupIds (h : Heap α) : Prop := (h.resources.map (fun c => c.bufId)).Nodup

/-- Every live buffer identifier is below the fresh counter. -/
def IdsBelow (h : Heap α) : Prop := ∀ c ∈ h.resources, c.bufId < h.nextBuf

theorem NodupIds_of_HeapWF {h : Heap α} (hw : HeapWF h) : NodupIds h := hw.1

theorem IdsBelow_of_HeapWF {h : Heap α} (hw : HeapWF h) : IdsBelow h := hw.2.1

/-- With distinct buffer identifiers, `find?` locates exactly the member
chunk whose identifier matches. -/
theorem find?_bufId_eq (a : Addr) :
    ∀ (l : List (Chunk α)) (c : Chunk α), (l.map (fun d => d.bufId)).Nodup →
      c ∈ l → c.bufId = a.bufId →
      l.find? (fun d => d.bufId == a.bufId) = some c
  | [], c, _, hc, _ => absurd hc (List.not_mem_nil c)
  | d :: rest, c, hnd, hc, hb => by
    rw [List.map_cons, List.nodup_cons] at hnd
    rcases List.mem_cons.mp hc with he | hmem
    · subst he
      exact List.find?_cons_of_pos rest (by simp [hb])
    · have hdne : d.bufId ≠ a.bufId := by
        intro he
        exact hnd.1 (by
          rw [he, ← hb]
          exact List.mem_map_of_mem (fun d => d.bufId) hmem)
      rw [List.find?_cons_of_neg rest (by simp [hdne])]
      exact find?_bufId_eq a rest c hnd.2 hmem hb

/-- Dereference through the unique matching chunk. -/
theorem derefAddr_eq_of_mem {h : Heap α} {a : Addr} {c : Chunk α}
    (hnd : NodupIds h) (hc : c ∈ h.resources) (hb : c.bufId = a.bufId) :
    derefAddr h a = c.data.get? a.off := by
  unfold derefAddr
  rw [find?_bufId_eq a h.resources c hnd hc hb]

/-- Helper: rewriting a position with the value it already holds is the
identity. -/
theorem set_get?_self : ∀ (l : List γ) (j : Nat) (v : γ), l.get? j = some v → l.set j v = l
  | [], _, _, hv => by simp at hv
  | x :: xs, 0, v, hv => by
    simp only [List.get?_cons_zero, Option.some.injEq] at hv
    subst hv; rfl
  | x :: xs, j + 1, v, hv => by
    simp only [List.get?_cons_succ] at hv
    simp only [List.set_cons_succ, set_get?_self xs j v hv]

theorem heapPush_length (h : Heap α) (j : Nat) (x : α) :
    (heapPush h j x).1.resources.length = h.resources.length := by
  unfold heapPush
  cases hg : h.resources.get? j <;> simp

theorem heapPush_nextBuf (h : Heap α) (j : Nat) (x : α) :
    (heapPush h j x).1.nextBuf = h.nextBuf := by
  unfold heapPush
  cases hg : h.resources.get? j <;> simp

/-- A push keeps the buffer identifier list unchanged. -/
theorem heapPush_bufIds (h : Heap α) (j : Nat) (x : α) :
    (heapPush h j x).1.resources.map (fun c => c.bufId) =
      h.resources.map (fun c => c.bufId) := by
  unfold heapPush
  cases hg : h.resources.get? j with
  | none => simp
  | some c =>
      simp only [List.map_set]
      exact set_get?_self _ j c.bufId (by
        rw [List.get?_eq_getElem?] at hg ⊢
        simp [List.getElem?_map, hg])

theorem heapPush_nodup {h : Heap α} (hn : NodupIds h) (j : Nat) (x : α) :
    NodupIds (heapPush h j x).1 := by
  unfold NodupIds
  rw [heapPush_bufIds]
  exact hn

theorem heapPush_below {h : Heap α} (hb : IdsBelow h) (j : Nat) (x : α) :
    IdsBelow (heapPush h j x).1 := by
  intro c hc
  rw [heapPush_nextBuf]
  have : c.bufId ∈ (heapPush h j x).1.resources.map (fun c => c.bufId) :=
    List.mem_map_of_mem _ hc
  rw [heapPush_bufIds] at this
  rcases List.mem_map.mp this with ⟨d, hd, he⟩
  rw [← he]
  exact hb d hd

/-- A push preserves liveness and the observed value of every live
address. -/
theorem heapPush_pres {h : Heap α} (hn : NodupIds h) (j : Nat) (x : α)
    {a : Addr} (ha : liveAddr h a) :
    liveAddr (heapPush h j x).1 a ∧ derefAddr (heapPush h j x).1 a = derefAddr h a := by
  rcases ha with ⟨ca, hmem, hbid, hoff⟩
  have hder : derefAddr h a = ca.data.get? a.off := derefAddr_eq_of_mem hn hmem hbid
  unfold heapPush
  cases hg : h.resources.get? j with
  | none => exact ⟨⟨ca, hmem, hbid, hoff⟩, rfl⟩
  | some c =>
      have hn2 : NodupIds (⟨h.resources.set j ⟨c.data ++ [x], c.cap, c.bufId⟩,
          h.capacity, h.nextBuf⟩ : Heap α) := by
        have := heapPush_nodup hn j x
        unfold heapPush at this
        rw [hg] at this
        exact this
      by_cases hca : ca.bufId = c.bufId
      · -- the pushed chunk is the one `a` points into
        have hcac : ca = c := by
          refine List.inj_on_of_nodup_map hn hmem (List.get?_mem hg) hca
        subst hcac
        have hjlen : j < h.resources.length := by
          rcases List.get?_eq_some.mp hg with ⟨hj, _⟩
          exact hj
        have hmem2 : (⟨ca.data ++ [x], ca.cap, ca.bufId⟩ : Chunk α) ∈
            h.resources.set j ⟨ca.data ++ [x], ca.cap, ca.bufId⟩ :=
          List.mem_set h.resources j hjlen _
        have hder2 : derefAddr (⟨h.resources.set j ⟨ca.data ++ [x], ca.cap, ca.bufId⟩,
            h.capacity, h.nextBuf⟩ : Heap α) a = (ca.data ++ [x]).get? a.off :=
          derefAddr_eq_of_mem hn2 hmem2 hbid
        constructor
        · exact ⟨_, hmem2, hbid, by simpa using Nat.lt_succ_of_lt hoff⟩
        · rw [hder2, hder, List.get?_append hoff]
      · -- `a` points into a different chunk, untouched by the push
        have hcane : ca ≠ c := fun he => hca (by rw [he])
        rcases List.mem_iff_get?.mp hmem with ⟨k, hk⟩
        have hkj : k ≠ j := by
          intro he
          subst he
          rw [hk] at hg
          exact hcane (by injection hg)
        have hmem2 : ca ∈ h.resources.set j ⟨c.data ++ [x], c.cap, c.bufId⟩ := by
          apply List.get?_mem (n := k)
          rw [List.get?_set_ne _ h.resources (fun he => hkj he.symm)]
          exact hk
        have hder2 : derefAddr (⟨h.resources.set j ⟨c.data ++ [x], c.cap, c.bufId⟩,
            h.capacity, h.nextBuf⟩ : Heap α) a = ca.data.get? a.off :=
          derefAddr_eq_of_mem hn2 hmem2 hbid
        exact ⟨⟨ca, hmem2, hbid, hoff⟩, by rw [hder2, hder]⟩

/-- The address a push returns observes the pushed value. -/
theorem heapPush_new {h : Heap α} (hn : NodupIds h) {j : Nat} (x : α)
    (hj : j < h.resources.length) :
    derefAddr (heapPush h j x).1 (heapPush h j x).2 = some x ∧
    (heapPush h j x).2 = ⟨(h.resources.get ⟨j, hj⟩).bufId,
      (h.resources.get ⟨j, hj⟩).data.length⟩ := by
  have hg : h.resources.get? j = some (h.resources.get ⟨j, hj⟩) := List.get?_eq_get hj
  have hn2 := heapPush_nodup hn j x
  unfold heapPush at *
  rw [hg] at *
  set c := h.resources.get ⟨j, hj⟩ with hc
  constructor
  · have hmem2 : (⟨c.data ++ [x], c.cap, c.bufId⟩ : Chunk α) ∈
        h.resources.set j ⟨c.data ++ [x], c.cap, c.bufId⟩ :=
      List.mem_set h.resources j hj _
    have := derefAddr_eq_of_mem (h := ⟨h.resources.set j ⟨c.data ++ [x], c.cap, c.bufId⟩,
        h.capacity, h.nextBuf⟩) (a := ⟨c.bufId, c.data.length⟩) hn2 hmem2 rfl
    simp only at this ⊢
    rw [this, List.get?_concat_length]
  · rfl

/-- Allocating a fresh chunk keeps identifiers distinct and bounded. -/
theorem new_chunk_nodup {h : Heap α} (hn : NodupIds h) (hb : IdsBelow h) (n : Nat) :
    NodupIds (new_chunk h n).1 := by
  unfold NodupIds new_chunk
  simp only [List.map_append, List.map_cons, List.map_nil]
  rw [List.nodup_append]
  refine ⟨hn, List.nodup_singleton _, ?_⟩
  rw [List.disjoint_singleton]
  intro hmem
  rcases List.mem_map.mp hmem with ⟨c, hc, he⟩
  exact absurd he (Nat.ne_of_lt (hb c hc))

theorem new_chunk_below {h : Heap α} (hb : IdsBelow h) (n : Nat) :
    IdsBelow (new_chunk h n).1 := by
  intro c hc
  unfold new_chunk at hc ⊢
  simp only at hc ⊢
  rcases List.mem_append.mp hc with hc | hc
  · exact Nat.lt_succ_of_lt (hb c hc)
  · simp only [List.mem_singleton] at hc
    subst hc
    exact Nat.lt_succ_self _

/-- Allocating a fresh chunk preserves liveness and observation of every
live address (its buffer is new, so `find?` still hits the old chunk). -/
theorem new_chunk_pres {h : Heap α} (hn : NodupIds h) (n : Nat)
    {a : Addr} (ha : liveAddr h a) :
    liveAddr (new_chunk h n).1 a ∧ derefAddr (new_chunk h n).1 a = derefAddr h a := by
  rcases ha with ⟨ca, hmem, hbid, hoff⟩
  have hfind : h.resources.find? (fun d => d.bufId == a.bufId) = some ca :=
    find?_bufId_eq a h.resources ca hn hmem hbid
  constructor
  · exact ⟨ca, List.mem_append_left _ hmem, hbid, hoff⟩
  · unfold derefAddr new_chunk
    simp only [List.find?_append, hfind, Option.or_some]

/-- One mutation step of the shared heap: identifiers stay distinct and
bounded, and every live address keeps observing the same value. -/
structure Evolves (h h' : Heap α) : Prop where
  nodup : NodupIds h'
  below : IdsBelow h'
  pres : ∀ a, liveAddr h a → liveAddr h' a ∧ derefAddr h' a = derefAddr h a

theorem Evolves.refl {h : Heap α} (hn : NodupIds h) (hb : IdsBelow h) : Evolves h h :=
  ⟨hn, hb, fun _ ha => ⟨ha, rfl⟩⟩

theorem Evolves.trans {h h' h'' : Heap α} (e1 : Evolves h h') (e2 : Evolves h' h'') :
    Evolves h h'' := by
  refine ⟨e2.nodup, e2.below, fun a ha => ?_⟩
  rcases e1.pres a ha with ⟨ha1, hd1⟩
  rcases e2.pres a ha1 with ⟨ha2, hd2⟩
  exact ⟨ha2, by rw [hd2, hd1]⟩

theorem heapPush_evolves {h : Heap α} (hn : NodupIds h) (hb : IdsBelow h)
    (j : Nat) (x : α) : Evolves h (heapPush h j x).1 :=
  ⟨heapPush_nodup hn j x, heapPush_below hb j x, fun _ ha => heapPush_pres hn j x ha⟩

theorem new_chunk_evolves {h : Heap α} (hn : NodupIds h) (hb : IdsBelow h)
    (n : Nat) : Evolves h (new_chunk h n).1 :=
  ⟨new_chunk_nodup hn hb n, new_chunk_below hb n, fun _ ha => new_chunk_pres hn n ha⟩

/-- The scan either reports a real chunk index or nothing. -/
theorem scan_from_lt (n : Nat) :
    ∀ (l : List (Chunk α)) (i : Nat) (u : Bool) (p : Nat) {j p₂ : Nat},
      scan_from n l i u p = (some j, p₂) → j < i + l.length
  | [], i, u, p, j, p₂ => by
    intro he
    simp [scan_from] at he
  | c :: rest, i, u, p, j, p₂ => by
    intro he
    simp only [scan_from] at he
    split at he
    · cases he
      simp
    · have := scan_from_lt n rest (i + 1) _ _ he
      simp only [List.length_cons]
      omega

/-- The scan path succeeds, leaves the handle table alone, and evolves
the heap (identity or one fresh chunk); the returned index is a real
chunk. -/
theorem suitable_chunk_scan_spec (h : Heap α) (loc : Loc) (n : Nat)
    (hn : NodupIds h) (hb : IdsBelow h) :
    ∃ h' loc' j, suitable_chunk_scan h loc n = .ok (h', loc', j) ∧
      Evolves h h' ∧ j < h'.resources.length ∧ loc'.ptrs = loc.ptrs ∧
      h.resources.length ≤ h'.resources.length := by
  unfold suitable_chunk_scan
  cases hscan : scan_chunks h.resources n loc.chunkPivot with
  | mk found pivot₂ =>
      cases found with
      | some j =>
          refine ⟨h, ⟨loc.ptrs, pivot₂, some j⟩, j, rfl, Evolves.refl hn hb, ?_, rfl,
            Nat.le_refl _⟩
          unfold scan_chunks at hscan
          by_cases hp : loc.chunkPivot ≤ h.resources.length
          · have := scan_from_lt n (h.resources.drop loc.chunkPivot)
              loc.chunkPivot true loc.chunkPivot hscan
            rw [List.length_drop] at this
            omega
          · rw [List.drop_eq_nil_of_le (by omega)] at hscan
            simp [scan_from] at hscan
      | none =>
          refine ⟨(new_chunk h (max n (max h.capacity min_chunk_size))).1,
            ⟨loc.ptrs, pivot₂, some (new_chunk h (max n (max h.capacity min_chunk_size))).2⟩,
            (new_chunk h (max n (max h.capacity min_chunk_size))).2, rfl,
            new_chunk_evolves hn hb _, ?_, rfl, ?_⟩
          · unfold new_chunk
            simp
          · unfold new_chunk
            simp

/-- `suitable_chunk` with a nonzero request always succeeds, does not
touch the handle table, and evolves the heap (identity or one fresh
chunk); the returned index is a real chunk. -/
theorem suitable_chunk_spec (h : Heap α) (loc : Loc) (n : Nat) (hne : n ≠ 0)
    (hn : NodupIds h) (hb : IdsBelow h) :
    ∃ h' loc' j, suitable_chunk h loc n = .ok (h', loc', j) ∧
      Evolves h h' ∧ j < h'.resources.length ∧ loc'.ptrs = loc.ptrs ∧
      h.resources.length ≤ h'.resources.length := by
  unfold suitable_chunk
  rw [if_neg hne]
  split
  · rename_i j₀ hlast
    split
    · rename_i c hg
      split
      · rename_i hrem
        refine ⟨h, loc, j₀, rfl, Evolves.refl hn hb, ?_, rfl, Nat.le_refl _⟩
        rcases List.get?_eq_some.mp hg with ⟨hj, _⟩
        exact hj
      · exact suitable_chunk_scan_spec h loc n hn hb
    · exact suitable_chunk_scan_spec h loc n hn hb
  · exact suitable_chunk_scan_spec h loc n hn hb

/-- An address that observes a value is live. -/
theorem liveAddr_of_deref {h : Heap α} {a : Addr} {x : α}
    (hd : derefAddr h a = some x) : liveAddr h a := by
  unfold derefAddr at hd
  cases hf : h.resources.find? (fun c => c.bufId == a.bufId) with
  | none => rw [hf] at hd; cases hd
  | some c =>
      rw [hf] at hd
      refine ⟨c, List.mem_of_find?_eq_some hf, ?_, ?_⟩
      · have := List.find?_some hf
        simpa using this
      · exact (List.get?_eq_some.mp hd).1

/-- What the fill loop does: it evolves the heap by pushes into chunk
`j`, keeps the chunk count and the table length, leaves handles outside
`[pos, pos + len)` untouched, and makes the handles at `[pos, pos+len)`
observe the pushed values in order. -/
theorem fillRange_spec (j : Nat) :
    ∀ (xs : List α) (h : Heap α) (ptrs : List Addr) (pos : Nat),
      NodupIds h → IdsBelow h → j < h.resources.length →
      pos + xs.length ≤ ptrs.length →
      Evolves h (fillRange h j ptrs pos xs).1 ∧
      (fillRange h j ptrs pos xs).1.resources.length = h.resources.length ∧
      (fillRange h j ptrs pos xs).2.length = ptrs.length ∧
      (∀ i, i < pos ∨ pos + xs.length ≤ i →
          (fillRange h j ptrs pos xs).2.get? i = ptrs.get? i) ∧
      (∀ k, (hk : k < xs.length) →
          derefAddr (fillRange h j ptrs pos xs).1
              ((fillRange h j ptrs pos xs).2.getD (pos + k) nullAddr) =
            some (xs.get ⟨k, hk⟩))
  | [], h, ptrs, pos, hn, hb, _, _ =>
      ⟨Evolves.refl hn hb, rfl, rfl, fun _ _ => rfl, fun k hk => absurd hk (by simp)⟩
  | x :: xs, h, ptrs, pos, hn, hb, hj, hle => by
      have hstep : fillRange h j ptrs pos (x :: xs) =
          fillRange (heapPush h j x).1 j (ptrs.set pos (heapPush h j x).2) (pos + 1) xs := rfl
      have hn1 : NodupIds (heapPush h j x).1 := heapPush_nodup hn j x
      have hb1 : IdsBelow (heapPush h j x).1 := heapPush_below hb j x
      have hj1 : j < (heapPush h j x).1.resources.length := by
        rw [heapPush_length]; exact hj
      have hle1 : (pos + 1) + xs.length ≤ (ptrs.set pos (heapPush h j x).2).length := by
        rw [List.length_set]
        simp only [List.length_cons] at hle
        omega
      obtain ⟨ihEv, ihRes, ihLen, ihFrame, ihVals⟩ :=
        fillRange_spec j xs (heapPush h j x).1 (ptrs.set pos (heapPush h j x).2) (pos + 1)
          hn1 hb1 hj1 hle1
      have hposlen : pos < ptrs.length := by
        simp only [List.length_cons] at hle
        omega
      refine ⟨?_, ?_, ?_, ?_, ?_⟩
      · rw [hstep]
        exact (heapPush_evolves hn hb j x).trans ihEv
      · rw [hstep, ihRes, heapPush_length]
      · rw [hstep, ihLen, List.length_set]
      · intro i hi
        rw [hstep]
        have hi1 : i < pos + 1 ∨ (pos + 1) + xs.length ≤ i := by
          simp only [List.length_cons] at hi
          omega
        have hne2 : pos ≠ i := by
          simp only [List.length_cons] at hi
          omega
        rw [ihFrame i hi1, List.get?_set_ne _ _ hne2]
      · intro k hk
        rw [hstep]
        cases k with
        | zero =>
            have hget : (fillRange (heapPush h j x).1 j
                (ptrs.set pos (heapPush h j x).2) (pos + 1) xs).2.get? pos =
                some (heapPush h j x).2 := by
              rw [ihFrame pos (Or.inl (Nat.lt_succ_self pos))]
              rw [List.get?_set_eq]
              rw [List.get?_eq_get hposlen]
              rfl
            have hnew : derefAddr (heapPush h j x).1 (heapPush h j x).2 = some x :=
              (heapPush_new hn x hj).1
            have hlive : liveAddr (heapPush h j x).1 (heapPush h j x).2 :=
              liveAddr_of_deref hnew
            rcases ihEv.pres _ hlive with ⟨_, hder⟩
            simp only [Nat.add_zero, List.getD_eq_get?, hget, Option.getD_some]
            rw [hder, hnew]
            rfl
        | succ k' =>
            have : pos + (k' + 1) = (pos + 1) + k' := by omega
            rw [this]
            have := ihVals k' (by simpa using Nat.lt_of_succ_lt_succ hk)
            simpa using this

/-- A successfully resolved index is in range. -/
theorem pypos_lt {len : Nat} {i : Int} {p : Nat} (h : pypos len i = .ok p) : p < len := by
  unfold pypos at h
  rcases lt_or_le i 0 with hi | hi
  · simp only [if_pos hi] at h
    split at h
    · exact absurd h (by simp)
    · rename_i hc
      push_neg at hc
      injection h with h
      omega
  · simp only [if_neg (not_lt.mpr hi)] at h
    split at h
    · exact absurd h (by simp)
    · rename_i hc
      push_neg at hc
      injection h with h
      omega

/-- C7: after `b = a.copy()` (a shallow copy that shares the chunk
storage), a single `b.setitem(i, v)` allocates a fresh copy of `v` in a
suitable chunk and overwrites only `b`'s handle at the resolved position
`p`: every observed element of `a` — including the one at position `p` —
is unchanged, `b`'s handles and observed elements at every position other
than `p` are unchanged, and `b`'s handle at `p` now observes `v`. -/
theorem c7_shallow_copy_setitem_frame (α : Type) (h : Heap α) (aloc : Loc)
    (hw : HeapWF h) (hl : LocWF h aloc) (i : Int) (x : α) (p : Nat)
    (hp : pypos aloc.ptrs.length i = .ok p) :
    ∃ h2 bloc, setitem_index h (copyLoc aloc) i x = .ok (h2, bloc) ∧
      collectVals h2 aloc = collectVals h aloc ∧
      bloc.ptrs.length = aloc.ptrs.length ∧
      (∀ q, q ≠ p → bloc.ptrs.get? q = aloc.ptrs.get? q) ∧
      (∀ q, q ≠ p → (collectVals h2 bloc).get? q = (collectVals h aloc).get? q) ∧
      derefAddr h2 (bloc.ptrs.getD p nullAddr) = some x := by
  obtain ⟨h1, loc1, j, hsc, hev1, hj1, hptrs1, _⟩ :=
    suitable_chunk_spec h (copyLoc aloc) 1 (by omega)
      (NodupIds_of_HeapWF hw) (IdsBelow_of_HeapWF hw)
  have hplen : p < aloc.ptrs.length := pypos_lt hp
  refine ⟨(heapPush h1 j x).1, ⟨loc1.ptrs.set p (heapPush h1 j x).2,
    loc1.chunkPivot, loc1.lastChunk⟩, ?_, ?_, ?_, ?_, ?_, ?_⟩
  · unfold setitem_index
    rw [show (copyLoc aloc).ptrs.length = aloc.ptrs.length from rfl, hp, hsc]
    rfl
  · apply List.map_congr_left
    intro a ha
    exact ((Evolves.trans hev1 (heapPush_evolves hev1.nodup hev1.below j x)).pres a
      (hl.1 a ha)).2
  · rw [List.length_set, hptrs1]
    rfl
  · intro q hq
    rw [List.get?_set_ne _ _ (fun he => hq he.symm), hptrs1]
    rfl
  · intro q hq
    unfold collectVals
    rw [List.get?_map, List.get?_map, List.get?_set_ne _ _ (fun he => hq he.symm), hptrs1,
      show (copyLoc aloc).ptrs = aloc.ptrs from rfl]
    cases hgq : aloc.ptrs.get? q with
    | none => rfl
    | some aq =>
        have hlive : liveAddr h aq := hl.1 aq (List.get?_mem hgq)
        show some (derefAddr (heapPush h1 j x).1 aq) = some (derefAddr h aq)
        rw [((Evolves.trans hev1 (heapPush_evolves hev1.nodup hev1.below j x)).pres aq
          hlive).2]
  · have hget : (loc1.ptrs.set p (heapPush h1 j x).2).get? p = some (heapPush h1 j x).2 := by
      rw [List.get?_set_eq]
      rw [hptrs1, show (copyLoc aloc).ptrs = aloc.ptrs from rfl, List.get?_eq_get hplen]
      rfl
    simp only [List.getD_eq_get?, hget, Option.getD_some]
    exact (heapPush_new hev1.nodup x hj1).1

/-- C1 (code bug witness): pointer stability is violated by
`shrink_to_fit`.  Pushing `1` into a fresh container allocates a chunk of
capacity `min_chunk_size = 64` holding the element at address `(0, 0)`;
`shrink_to_fit` then trims that chunk's spare capacity, which reallocates
its buffer, yet the handle table still records `(0, 0)`: after the call
the retained element's stored handle no longer dereferences, although the
element itself survives at a new address. -/
theorem c1_shrink_to_fit_invalidates_surviving_handle :
    push_back (⟨[], 0, 0⟩ : Heap Int) (⟨[], 0, none⟩ : Loc) 1 =
      .ok (⟨[⟨[1], 64, 0⟩], 64, 1⟩, ⟨[⟨0, 0⟩], 0, some 0⟩) ∧
    derefAddr (⟨[⟨[1], 64, 0⟩], 64, 1⟩ : Heap Int) ⟨0, 0⟩ = some 1 ∧
    shrink_to_fit (⟨[⟨[1], 64, 0⟩], 64, 1⟩ : Heap Int) = ⟨[⟨[1], 1, 1⟩], 1, 2⟩ ∧
    derefAddr (⟨[⟨[1], 1, 1⟩], 1, 2⟩ : Heap Int) ⟨0, 0⟩ = none := by
  refine ⟨rfl, rfl, rfl, rfl⟩

/-- C2 (code bug witness): on a container of capacity `64` holding one
element, the claim requires `reserve(1)` to change nothing, but
`delta = new_cap - capacity()` underflows in `size_t` to
`2^64 - 63 > 0`, so the code runs
`_ptrs.reserve(max(1, 1 + (2^64-63))) = _ptrs.reserve(2^64 - 62)` — a
request beyond `max_size()` — and `std::vector::reserve` throws
`std::length_error` before `new_chunk` runs: the members are left
unchanged, but the call raises an exception instead of returning as the
required silent no-op. -/
theorem c2_reserve_below_capacity_is_not_noop :
    (((1 : Int) - ((64 : Nat) : Int)) % (U64 : Int)).toNat = 2 ^ 64 - 63 ∧
    max 1 ((1 + (2 ^ 64 - 63)) % U64) = 2 ^ 64 - 62 ∧
    ptrs_max_size < 2 ^ 64 - 62 ∧
    reserve (⟨[⟨[1], 64, 0⟩], 64, 1⟩ : Heap Int) 1 1 = .error .lengthError := by
  refine ⟨by decide, by decide, by decide, by rfl⟩

/-- C3 (code bug witness): for a positive step the code computes
`num_steps = max(0, (stop-start-1)/step + 1)` with truncating division
and no `stop > start` guard, so the empty Python slice `[0:0:2]` of a
container of length `3` normalizes to one selected element
(`(0-0-1)/2 + 1 = 1`) instead of the count `0` the claim requires. -/
theorem c3_build_slice_empty_slice_counts_one :
    build_slice ⟨some 0, some 0, some 2⟩ 3 = .ok ⟨0, 1, 2⟩ := by
  rfl

/-- Index resolution on an empty container always fails: with
`length = 0` the test `ans < 0 || ans >= size()` is a tautology. -/
theorem pypos_zero (i : Int) : pypos 0 i = .error .outOfRange := by
  unfold pypos
  have h : (if i < 0 then i + ((0 : Nat) : Int) else i) < 0 ∨
      (if i < 0 then i + ((0 : Nat) : Int) else i) ≥ ((0 : Nat) : Int) := by
    split <;> omega
  rw [if_pos h]

/-- C9: on an empty container, `pop` with the default index `-1`, `pop`
at any index at all, and `pop_back` each fail with `std::out_of_range`
(not `NotFound`); the error is raised before any state is produced, so
the container is left unchanged. -/
theorem c9_pop_on_empty_raises_out_of_range (α : Type) (h : Heap α)
    (pivot : Nat) (last : Option Nat) (i : Int) :
    pop h ⟨[], pivot, last⟩ i = .error .outOfRange ∧
    pop_back (⟨[], pivot, last⟩ : Loc) = .error .outOfRange := by
  constructor
  · unfold pop
    rw [show ([] : List Addr).length = 0 from rfl, pypos_zero]
    rfl
  · rfl

/-- The pairwise loop of `operator==` agrees with list equality once the
lengths agree. -/
theorem zip_all_eq_iff [DecidableEq α] :
    ∀ (a b : List α), a.length = b.length →
      (((List.zip a b).all (fun p => !(decide (p.1 ≠ p.2)))) = true ↔ a = b)
  | [], [], _ => by simp
  | [], _ :: _, hl => by simp at hl
  | _ :: _, [], hl => by simp at hl
  | x :: xs, y :: ys, hl => by
    have ih := zip_all_eq_iff xs ys (by simpa using hl)
    simp only [List.zip_cons_cons, List.all_cons, Bool.and_eq_true, List.cons.injEq]
    constructor
    · rintro ⟨h1, h2⟩
      refine ⟨by simpa using h1, ih.mp h2⟩
    · rintro ⟨h1, h2⟩
      exact ⟨by simpa using h1, ih.mpr h2⟩

/-- `pyvec::operator==` decides list equality of the element
sequences. -/
theorem pyvec_eq_iff_eq [DecidableEq α] (a b : List α) :
    pyvec_eq a b = true ↔ a = b := by
  unfold pyvec_eq
  split
  · rename_i hne
    constructor
    · intro h; cases h
    · intro h; exact absurd (congrArg List.length h) hne
  · rename_i hlen
    push_neg at hlen
    rw [zip_all_eq_iff a b hlen]

/-- Inversion of `List.Lex` at two cons cells. -/
theorem lex_cons_inv {r : α → α → Prop} {x y : α} {xs ys : List α}
    (h : List.Lex r (x :: xs) (y :: ys)) : r x y ∨ (x = y ∧ List.Lex r xs ys) := by
  cases h with
  | cons h => exact Or.inr ⟨rfl, h⟩
  | rel h => exact Or.inl h

/-- `pyvec::operator<` decides Mathlib's standard lexicographic strict
order on the element sequences. -/
theorem pyvec_lt_iff_lex [LinearOrder α] :
    ∀ a b : List α, pyvec_lt a b = true ↔ List.Lex (· < ·) a b
  | [], [] => by
    simp only [pyvec_lt, List.length_nil, decide_eq_true_eq]
    constructor
    · omega
    · intro h; cases h
  | [], y :: ys => by
    simp only [pyvec_lt, List.length_cons, decide_eq_true_eq]
    constructor
    · intro _; exact List.Lex.nil
    · intro _; omega
  | x :: xs, [] => by
    simp only [pyvec_lt]
    constructor
    · intro h; cases h
    · intro h; cases h
  | x :: xs, y :: ys => by
    have ih := pyvec_lt_iff_lex xs ys
    simp only [pyvec_lt]
    rcases lt_trichotomy x y with hxy | hxy | hxy
    · simp only [if_pos hxy]
      constructor
      · intro _; exact List.Lex.rel hxy
      · intro _; trivial
    · subst hxy
      rw [if_neg (lt_irrefl x), if_neg (lt_irrefl x), ih]
      constructor
      · intro h; exact List.Lex.cons h
      · intro h
        rcases lex_cons_inv h with h1 | ⟨_, h2⟩
        · exact absurd h1 (lt_irrefl x)
        · exact h2
    · rw [if_neg (not_lt.mpr hxy.le), if_pos hxy]
      constructor
      · intro h; cases h
      · intro h
        rcases lex_cons_inv h with h1 | ⟨he, _⟩
        · exact absurd h1 (not_lt.mpr hxy.le)
        · exact absurd he.symm (ne_of_lt hxy)

/-- The explicit reading of the lexicographic order that C8 states: the
first index where the sequences differ decides via `<`, and a proper
prefix is smaller. -/
theorem lex_iff_first_diff [LinearOrder α] :
    ∀ a b : List α, List.Lex (· < ·) a b ↔
      ((∃ i x y, a.take i = b.take i ∧ a.get? i = some x ∧ b.get? i = some y ∧ x < y) ∨
       (a.length < b.length ∧ a = b.take a.length))
  | [], b => by
    constructor
    · intro h
      cases h
      exact Or.inr ⟨by simp, by simp⟩
    · intro h
      rcases h with ⟨i, x, y, _, hx, _, _⟩ | ⟨hlen, _⟩
      · simp at hx
      · cases b with
        | nil => simp at hlen
        | cons z zs => exact List.Lex.nil
  | x :: xs, [] => by
    constructor
    · intro h; cases h
    · intro h
      rcases h with ⟨i, u, v, _, _, hv, _⟩ | ⟨hlen, _⟩
      · simp at hv
      · simp at hlen
  | x :: xs, y :: ys => by
    have ih := lex_iff_first_diff xs ys
    constructor
    · intro h
      rcases lex_cons_inv h with h1 | ⟨he, h2⟩
      · exact Or.inl ⟨0, x, y, by simp, rfl, rfl, h1⟩
      · subst he
        rcases ih.mp h2 with ⟨i, u, v, ht, hu, hv, huv⟩ | ⟨hlen, hpre⟩
        · exact Or.inl ⟨i + 1, u, v, by simpa using ht, by simpa using hu,
            by simpa using hv, huv⟩
        · exact Or.inr ⟨by simpa using hlen, by simpa using hpre⟩
    · intro h
      rcases h with ⟨i, u, v, ht, hu, hv, huv⟩ | ⟨hlen, hpre⟩
      · cases i with
        | zero =>
          simp only [List.get?_cons_zero, Option.some.injEq] at hu hv
          subst hu; subst hv
          exact List.Lex.rel huv
        | succ j =>
          simp only [List.take_succ_cons, List.cons.injEq] at ht
          rcases ht with ⟨he, ht⟩
          subst he
          refine List.Lex.cons (ih.mpr (Or.inl ⟨j, u, v, ht, by simpa using hu,
            by simpa using hv, huv⟩))
      · simp only [List.length_cons, List.take_succ_cons, List.cons.injEq] at hlen hpre
        rcases hpre with ⟨he, hpre⟩
        subst he
        exact List.Lex.cons (ih.mpr (Or.inr ⟨by omega, hpre⟩))

/-- C10: inserting an empty range at any position — `insert(pos, 0, v)`
or `insert(pos, first, last)` with `first == last` — returns the heap,
the handle table and hence every element address unchanged together with
an iterator at `pos`, and raises no error, even though the allocator
itself rejects a zero-size request with `std::invalid_argument`: the
zero case returns before the allocator is consulted. -/
theorem c10_insert_empty_range_is_noop (α : Type) (h : Heap α) (loc : Loc)
    (idx : Nat) (x : α) :
    insertCount h loc idx 0 x = .ok (h, loc, idx) ∧
    insertRange h loc idx ([] : List α) = .ok (h, loc, idx) ∧
    suitable_chunk h loc 0 = .error .invalidArgument := by
  refine ⟨rfl, rfl, rfl⟩

/-- C8: `operator==` holds exactly on equal length with pairwise-equal
elements; `operator<` is the standard lexicographic order (the first
index where the sequences differ decides, a proper prefix is smaller);
`==` is reflexive and symmetric; and `<` is a strict total order
(irreflexive, transitive, total on distinct sequences) whenever the
element order is total.  Stated on the dereferenced element sequences the
C++ operators traverse. -/
theorem c8_comparison_laws (α : Type) [LinearOrder α] :
    (∀ a b : List α, pyvec_eq a b = true ↔
        (a.length = b.length ∧ ∀ i, i < a.length → a.get? i = b.get? i)) ∧
    (∀ a b : List α, pyvec_lt a b = true ↔
        ((∃ i x y, a.take i = b.take i ∧ a.get? i = some x ∧ b.get? i = some y ∧ x < y) ∨
         (a.length < b.length ∧ a = b.take a.length))) ∧
    (∀ a : List α, pyvec_eq a a = true) ∧
    (∀ a b : List α, pyvec_eq a b = pyvec_eq b a) ∧
    (∀ a : List α, pyvec_lt a a = false) ∧
    (∀ a b c : List α, pyvec_lt a b = true → pyvec_lt b c = true → pyvec_lt a c = true) ∧
    (∀ a b : List α, a ≠ b → pyvec_lt a b = true ∨ pyvec_lt b a = true) := by
  refine ⟨?_, ?_, ?_, ?_, ?_, ?_, ?_⟩
  · intro a b
    rw [pyvec_eq_iff_eq]
    constructor
    · rintro rfl; exact ⟨rfl, fun _ _ => rfl⟩
    · rintro ⟨hl, hp⟩
      apply List.ext_get?
      intro n
      by_cases hn : n < a.length
      · exact hp n hn
      · rw [List.get?_eq_none.mpr (by omega), List.get?_eq_none.mpr (by omega)]
  · intro a b
    rw [pyvec_lt_iff_lex, lex_iff_first_diff]
  · intro a; rw [pyvec_eq_iff_eq]
  · intro a b
    rw [Bool.eq_iff_iff, pyvec_eq_iff_eq, pyvec_eq_iff_eq]
    exact eq_comm
  · intro a
    rw [← Bool.not_eq_true, pyvec_lt_iff_lex]
    exact irrefl_of (List.Lex (· < ·)) a
  · intro a b c h1 h2
    rw [pyvec_lt_iff_lex] at h1 h2 ⊢
    exact trans_of (List.Lex (· < ·)) h1 h2
  · intro a b hne
    rw [pyvec_lt_iff_lex, pyvec_lt_iff_lex]
    haveI : IsTrichotomous α (· < ·) := ⟨lt_trichotomy⟩
    rcases trichotomous_of (List.Lex (· < ·)) a b with h | h | h
    · exact Or.inl h
    · exact absurd h hne
    · exact Or.inr h

theorem toU64_of_nonneg {z : Int} (h0 : 0 ≤ z) (hlt : z < (U64 : Int)) :
    toU64 z = z.toNat := by
  unfold toU64
  rw [Int.emod_eq_of_lt h0 hlt]

/-- Round trip of the `size_t` cast for `ptrdiff_t` values that fit. -/
theorem toI64_toU64 {z : Int} (h1 : -(2 ^ 63) ≤ z) (h2 : z < 2 ^ 63) :
    toI64 (toU64 z) = z := by
  unfold toI64 toU64 U64
  split <;> omega

/-- Truncating division by a positive divisor never exceeds a nonnegative
bound on the dividend. -/
theorem tdiv_le_bound {a b c : Int} (hb : 1 ≤ b) (hc : 0 ≤ c) (ha : a ≤ c) :
    a.tdiv b ≤ c := by
  rcases le_or_lt 0 a with h0 | h0
  · rw [Int.tdiv_eq_ediv h0 (by omega)]
    exact le_trans (Int.ediv_le_self b h0) ha
  · have hneg : 0 ≤ (-a).tdiv b := Int.tdiv_nonneg (by omega) (by omega)
    rw [Int.neg_tdiv] at hneg
    omega

/-- The normalized count is bounded once the dividend is. -/
theorem count_bound {X b : Int} {len : Nat} (hb : 1 ≤ b) (hX : X ≤ (len : Int)) :
    (((max 0 (X.tdiv b + 1)).toNat : Int)) ≤ (len : Int) + 1 := by
  have := tdiv_le_bound hb (c := (len : Int)) (by omega) hX
  omega

/-- Shape facts about a successful slice normalization: the stored
`size_t` start is the cast of a signed start in `[-1, len]`, and the
count is at most `len + 1`. -/
theorem build_slice_ok_facts {t : PySlice} {len : Nat} {s : SliceNative}
    (hs : build_slice t len = .ok s) :
    s.step ≠ 0 ∧ ∃ st : Int,
      s.start = toU64 st ∧ -1 ≤ st ∧ st ≤ (len : Int) ∧
      (s.numSteps : Int) ≤ (len : Int) + 1 := by
  rcases hq : t.stop? with _ | stop0
  · simp only [build_slice, hq, Option.getD_none, Option.getD_some] at hs
    split at hs
    · exact absurd hs (by simp)
    · rename_i hz
      split at hs
      · rename_i hpos
        cases hs
        refine ⟨hz, _, rfl, by split <;> omega, by split <;> omega, ?_⟩
        exact count_bound (by omega) (by split <;> split <;> omega)
      · rename_i hpos
        cases hs
        refine ⟨hz, _, rfl, by split <;> omega, by split <;> omega, ?_⟩
        exact count_bound (by omega) (by split <;> omega)
  · simp only [build_slice, hq, Option.getD_none, Option.getD_some] at hs
    split at hs
    · exact absurd hs (by simp)
    · rename_i hz
      split at hs
      · rename_i hpos
        cases hs
        refine ⟨hz, _, rfl, by split <;> omega, by split <;> omega, ?_⟩
        exact count_bound (by omega) (by split <;> split <;> omega)
      · rename_i hpos
        cases hs
        refine ⟨hz, _, rfl, by split <;> omega, by split <;> omega, ?_⟩
        exact count_bound (by omega) (by split <;> split <;> omega)

/-- The deletion test of `delitem` selects position `i` exactly when `i`
is one of the `count` slice positions `start, start+step, …` (the signed
↔ unsigned conversion in the comparison with `num_steps` keeps positions
on the wrong side of `start` unselected). -/
theorem delSelected_iff {s : SliceNative} {st : Int} {len : Nat}
    (hst : toI64 s.start = st) (hstep : s.step ≠ 0)
    (hstlo : -1 ≤ st) (hsthi : st ≤ (len : Int))
    (hcount : (s.numSteps : Int) ≤ (len : Int) + 1)
    (hlen : len < 2 ^ 61) {i : Nat} (hi : i < len) :
    delSelected s i = true ↔
      ∃ k, k < s.numSteps ∧ (i : Int) = st + (k : Int) * s.step := by
  unfold delSelected
  rw [hst]
  simp only [Bool.and_eq_true, beq_iff_eq, decide_eq_true_eq]
  constructor
  · rintro ⟨hmod, hlt⟩
    have hdvd : s.step ∣ ((i : Int) - st) := Int.dvd_of_tmod_eq_zero hmod
    have hqm : ((i : Int) - st).tdiv s.step * s.step = (i : Int) - st :=
      Int.tdiv_mul_cancel hdvd
    have habs : ((i : Int) - st).natAbs ≤ len + 1 := by omega
    have hqabs : (((i : Int) - st).tdiv s.step).natAbs ≤ len + 1 := by
      have hmul := Int.natAbs_mul (((i : Int) - st).tdiv s.step) s.step
      rw [hqm] at hmul
      have hs1 : 1 ≤ s.step.natAbs := by omega
      have := Nat.le_mul_of_pos_right ((((i : Int) - st).tdiv s.step).natAbs) hs1
      omega
    rcases le_or_lt 0 (((i : Int) - st).tdiv s.step) with hq0 | hq0
    · refine ⟨(((i : Int) - st).tdiv s.step).toNat, ?_, ?_⟩
      · rw [toU64_of_nonneg hq0 (by unfold U64; omega)] at hlt
        exact hlt
      · rw [Int.toNat_of_nonneg hq0]
        linarith [hqm]
    · exfalso
      unfold toU64 U64 at hlt
      omega
  · rintro ⟨k, hk, hik⟩
    have hdelta : (i : Int) - st = (k : Int) * s.step := by
      rw [hik]; ring
    refine ⟨by rw [hdelta, Int.mul_tmod_left], ?_⟩
    rw [hdelta, Int.mul_tdiv_cancel _ hstep,
      toU64_of_nonneg (by omega) (by unfold U64; omega)]
    omega

/-- Reading every position back in order reproduces the table. -/
theorem filterMap_get?_range : ∀ (l : List γ),
    (List.range l.length).filterMap (fun i => l.get? i) = l
  | [] => rfl
  | x :: xs => by
      rw [List.length_cons, List.range_succ_eq_map, List.filterMap_cons, List.filterMap_map]
      have hcomp : ((fun i => (x :: xs).get? i) ∘ Nat.succ) = fun i => xs.get? i := by
        funext i; rfl
      rw [hcomp, filterMap_get?_range xs]
      rfl

/-- C6: for every container and every slice descriptor the normalizer
accepts, `delitem` is a no-op when the normalized count is `0`, and
otherwise keeps, in order, exactly the positions that are not among the
`count` selected positions `start, start + step, …` (for positive and
negative step alike).  `len < 2^61` keeps the `size_t` casts exact. -/
theorem c6_delete_slice_removes_selected (β : Type) (ptrs : List β) (t : PySlice)
    (s : SliceNative) (hs : build_slice t ptrs.length = .ok s)
    (hlen : ptrs.length < 2 ^ 61) :
    (s.numSteps = 0 → delitem_ptrs s ptrs = ptrs) ∧
    (∀ i : Nat, ((List.range s.numSteps).any
        (fun k => (i : Int) == toI64 s.start + (k : Int) * s.step)) = true ↔
      ∃ k, k < s.numSteps ∧ (i : Int) = toI64 s.start + (k : Int) * s.step) ∧
    delitem_ptrs s ptrs = (List.range ptrs.length).filterMap
      (fun (i : Nat) => if (List.range s.numSteps).any
          (fun k => (i : Int) == toI64 s.start + (k : Int) * s.step) then none
        else ptrs.get? i) := by
  obtain ⟨hstep, st, hstart, hstlo, hsthi, hcount⟩ := build_slice_ok_facts hs
  have hroundtrip : toI64 s.start = st := by
    rw [hstart]
    exact toI64_toU64 (by omega) (by omega)
  have hanyiff : ∀ i : Nat, ((List.range s.numSteps).any
      (fun k => (i : Int) == toI64 s.start + (k : Int) * s.step)) = true ↔
      ∃ k, k < s.numSteps ∧ (i : Int) = toI64 s.start + (k : Int) * s.step := by
    intro i
    rw [List.any_eq_true]
    constructor
    · rintro ⟨k, hkmem, hkeq⟩
      exact ⟨k, List.mem_range.mp hkmem, by simpa using hkeq⟩
    · rintro ⟨k, hk, hkeq⟩
      exact ⟨k, List.mem_range.mpr hk, by simpa using hkeq⟩
  refine ⟨?_, hanyiff, ?_⟩
  · intro h0
    unfold delitem_ptrs
    rw [if_pos h0]
  · unfold delitem_ptrs
    split
    · rename_i h0
      have hcongr : (List.range ptrs.length).filterMap
          (fun (i : Nat) => if ((List.range s.numSteps).any
              (fun k => (i : Int) == toI64 s.start + (k : Int) * s.step)) = true then none
            else ptrs.get? i) =
          (List.range ptrs.length).filterMap (fun (i : Nat) => ptrs.get? i) := by
        apply List.filterMap_congr
        intro i _
        simp [h0]
      rw [hcongr, filterMap_get?_range]
    · rename_i h0
      apply List.filterMap_congr
      intro i hmem
      have hi : i < ptrs.length := List.mem_range.mp hmem
      refine if_congr ?_ rfl rfl
      rw [delSelected_iff hroundtrip hstep hstlo hsthi hcount hlen hi, ← hroundtrip]
      exact (hanyiff i).symm

/-- For a unit-step slice the normalized region `[start, start+count)`
lies inside the table: `start ≥ 0` and, when the count is positive,
`start + count = stop ≤ len`. -/
theorem build_slice_unit_facts {t : PySlice} {len : Nat} {s : SliceNative}
    (hs : build_slice t len = .ok s) (hlen : len < 2 ^ 61) (h1 : s.step = 1) :
    s.start + s.numSteps ≤ len := by
  rcases hq : t.stop? with _ | stop0
  · simp only [build_slice, hq, Option.getD_none, Option.getD_some] at hs
    split at hs
    · exact absurd hs (by simp)
    · rename_i hz
      split at hs
      · rename_i hpos
        cases hs
        have h1c : t.step?.getD 1 = 1 := h1
        simp only [h1c, Int.tdiv_one]
        unfold toU64 U64
        split <;> omega
      · rename_i hpos
        cases hs
        have h1c : t.step?.getD 1 = 1 := h1
        omega
  · simp only [build_slice, hq, Option.getD_none, Option.getD_some] at hs
    split at hs
    · exact absurd hs (by simp)
    · rename_i hz
      split at hs
      · rename_i hpos
        cases hs
        have h1c : t.step?.getD 1 = 1 := h1
        simp only [h1c, Int.tdiv_one]
        unfold toU64 U64
        split <;> split <;> omega
      · rename_i hpos
        cases hs
        have h1c : t.step?.getD 1 = 1 := h1
        omega

/-- Dropping exactly the positions of the interval `[a, b)` from a table
read in order leaves its prefix before `a` and its suffix from `b`. -/
theorem filterMap_interval :
    ∀ (l : List γ) (a b : Nat), a ≤ b →
      (List.range l.length).filterMap
        (fun (i : Nat) => if a ≤ i ∧ i < b then none else l.get? i) =
      l.take a ++ l.drop b
  | [], a, b, _ => by simp
  | x :: xs, a, b, hab => by
      rw [List.length_cons, List.range_succ_eq_map, List.filterMap_cons, List.filterMap_map]
      have hcongr : ((fun (i : Nat) => if a ≤ i ∧ i < b then none
          else (x :: xs).get? i) ∘ Nat.succ) =
          fun (i : Nat) => if a - 1 ≤ i ∧ i < b - 1 then none else xs.get? i := by
        funext i
        simp only [Function.comp_apply, List.get?_cons_succ]
        exact if_congr (by omega) rfl rfl
      rw [hcongr, filterMap_interval xs (a - 1) (b - 1) (by omega)]
      rcases a with _ | j
      · rcases b with _ | k
        · rw [if_neg (by omega)]
          rfl
        · rw [if_pos (by omega)]
          rfl
      · rw [if_neg (by omega)]
        have hb : b = (b - 1) + 1 := by omega
        rw [hb]
        rfl

/-- A small `size_t` value reads back as itself through the signed
cast. -/
theorem toI64_small {n : Nat} (h : n < 2 ^ 63) : toI64 n = (n : Int) := by
  unfold toI64 U64
  split <;> omega

/-- Reduction of a successful monadic step. -/
theorem except_bind_ok {ε γ δ : Type} (a : γ) (f : γ → Except ε δ) :
    (Except.ok a : Except ε γ) >>= f = f a := rfl

/-- For a unit-step normalized slice the deletion test selects exactly
the contiguous region `[start, start+count)`, so `delitem` keeps the
prefix before it and the suffix after it. -/
theorem delitem_unit {s : SliceNative} (ptrs : List β)
    (hstep : s.step = 1) (hstI : toI64 s.start = (s.start : Int))
    (hcount : (s.numSteps : Int) ≤ (ptrs.length : Int) + 1)
    (hlen : ptrs.length < 2 ^ 61) (hstart : s.start ≤ ptrs.length) :
    delitem_ptrs s ptrs = ptrs.take s.start ++ ptrs.drop (s.start + s.numSteps) := by
  unfold delitem_ptrs
  split
  · rename_i h0
    rw [h0, Nat.add_zero]
    exact (List.take_append_drop _ _).symm
  · rename_i h0
    rw [← filterMap_interval ptrs s.start (s.start + s.numSteps) (by omega)]
    apply List.filterMap_congr
    intro i hmem
    have hi : i < ptrs.length := List.mem_range.mp hmem
    refine if_congr ?_ rfl rfl
    unfold delSelected
    rw [hstI, hstep]
    simp only [Int.tmod_one, Int.tdiv_one, Bool.and_eq_true, beq_iff_eq,
      decide_eq_true_eq, true_and]
    unfold toU64 U64
    constructor
    · intro hc
      omega
    · intro hc
      omega

/-- C4: for every unit-step slice `(start, count)` and every replacement
sequence `xs` (any length, `delta = len(xs) - count` handled by opening
`delta` slots right after the slice, erasing the surplus trailing slots,
or leaving the table size alone), `setitem` succeeds and the observed
contents become the prefix before `start`, then fresh copies of `xs` in
order, then the suffix from `start + count`. -/
theorem c4_setitem_unit_step (α : Type) (h : Heap α) (loc : Loc)
    (hw : HeapWF h) (hl : LocWF h loc) (t : PySlice) (xs : List α) (s : SliceNative)
    (hs : build_slice t loc.ptrs.length = .ok s) (hlen : loc.ptrs.length < 2 ^ 61)
    (hstep : s.step = 1) :
    ∃ h2 loc2, setitem_slice h loc t xs = .ok (h2, loc2) ∧
      collectVals h2 loc2 =
        (collectVals h loc).take s.start ++ xs.map some ++
        (collectVals h loc).drop (s.start + s.numSteps) := by
  have hbound : s.start + s.numSteps ≤ loc.ptrs.length := build_slice_unit_facts hs hlen hstep
  obtain ⟨hstep0, st0, hst0a, hst0b, hst0c, hcountB⟩ := build_slice_ok_facts hs
  have hstI : toI64 s.start = (s.start : Int) := toI64_small (by omega)
  by_cases hx : xs.length = 0
  · have hxnil : xs = [] := List.length_eq_zero.mp hx
    subst hxnil
    refine ⟨h, ⟨delitem_ptrs s loc.ptrs, loc.chunkPivot, loc.lastChunk⟩, ?_, ?_⟩
    · unfold setitem_slice
      rw [hs, except_bind_ok, if_pos (show ([] : List α).length = 0 from rfl)]
      unfold delitem_slice
      rw [hs, except_bind_ok, except_bind_ok]
    · show (delitem_ptrs s loc.ptrs).map (derefAddr h) = _
      rw [delitem_unit loc.ptrs hstep hstI (by omega) hlen (by omega),
        List.map_append, List.map_take, List.map_drop]
      simp only [List.map_nil, List.nil_append, List.append_nil]
      rfl
  · obtain ⟨P1, hrun, hP1len, hfL, hfR⟩ :
        ∃ P1 : List Addr,
          setitem_slice h loc t xs = (do
            let r ← suitable_chunk h (⟨P1, loc.chunkPivot, loc.lastChunk⟩ : Loc) xs.length
            match r with
            | (h1, loc2, j) =>
                match fillRange h1 j loc2.ptrs s.start xs with
                | (h2, ptrs2) =>
                    Except.ok (h2, (⟨ptrs2, loc2.chunkPivot, loc2.lastChunk⟩ : Loc))) ∧
          P1.length = loc.ptrs.length + xs.length - s.numSteps ∧
          (∀ p, p < s.start → P1.get? p = loc.ptrs.get? p) ∧
          (∀ p, s.start + xs.length ≤ p →
            P1.get? p = loc.ptrs.get? (p - xs.length + s.numSteps)) := by
      rcases lt_trichotomy ((xs.length : Int) - (s.numSteps : Int)) 0 with hd | hd | hd
      · refine ⟨loc.ptrs.take (s.start + xs.length) ++
          loc.ptrs.drop (s.start + s.numSteps), ?_, ?_, ?_, ?_⟩
        · unfold setitem_slice
          rw [hs, except_bind_ok, if_neg hx, if_pos hstep, if_neg (by omega), if_pos hd]
          rfl
        · simp only [List.length_append, List.length_take, List.length_drop]
          omega
        · intro p hp
          rw [List.get?_append (by
            simp only [List.length_take]
            omega)]
          exact List.get?_take (by omega)
        · intro p hp
          have hT : (loc.ptrs.take (s.start + xs.length)).length = s.start + xs.length := by
            simp only [List.length_take]
            omega
          rw [List.get?_append_right (by rw [hT]; omega), hT, List.get?_drop]
          congr 1
          omega
      · refine ⟨loc.ptrs, ?_, by omega, fun _ _ => rfl, ?_⟩
        · unfold setitem_slice
          rw [hs, except_bind_ok, if_neg hx, if_pos hstep, if_neg (by omega),
            if_neg (by omega)]
          rfl
        · intro p hp
          congr 1
          omega
      · refine ⟨loc.ptrs.take (s.start + s.numSteps) ++
          (loc.ptrs.drop (s.start + s.numSteps) ++
            List.replicate ((xs.length : Int) - (s.numSteps : Int)).toNat nullAddr).take
              ((xs.length : Int) - (s.numSteps : Int)).toNat ++
          loc.ptrs.drop (s.start + s.numSteps), ?_, ?_, ?_, ?_⟩
        · unfold setitem_slice
          rw [hs, except_bind_ok, if_neg hx, if_pos hstep, if_pos hd]
          unfold insert_empty
          rw [if_neg (by omega)]
          rfl
        · simp only [List.length_append, List.length_take, List.length_drop,
            List.length_replicate]
          omega
        · intro p hp
          rw [List.get?_append (by
            simp only [List.length_append, List.length_take, List.length_drop,
              List.length_replicate]
            omega)]
          rw [List.get?_append (by
            simp only [List.length_take]
            omega)]
          exact List.get?_take (by omega)
        · intro p hp
          have hAB : (loc.ptrs.take (s.start + s.numSteps) ++
              (loc.ptrs.drop (s.start + s.numSteps) ++
                List.replicate ((xs.length : Int) - (s.numSteps : Int)).toNat nullAddr).take
                  ((xs.length : Int) - (s.numSteps : Int)).toNat).length =
              s.start + xs.length := by
            simp only [List.length_append, List.length_take, List.length_drop,
              List.length_replicate]
            omega
          rw [List.get?_append_right (by rw [hAB]; omega), hAB, List.get?_drop]
          congr 1
          omega
    obtain ⟨h1, loc2, j, hsc, hev1, hj1, hptrs2, hreslen⟩ :=
      suitable_chunk_spec h (⟨P1, loc.chunkPivot, loc.lastChunk⟩ : Loc) xs.length hx
        (NodupIds_of_HeapWF hw) (IdsBelow_of_HeapWF hw)
    have hlocP : loc2.ptrs = P1 := hptrs2
    have hle2 : s.start + xs.length ≤ loc2.ptrs.length := by
      rw [hlocP]
      omega
    obtain ⟨hfEv, hfRes, hfLen, hfFrame, hfVals⟩ :=
      fillRange_spec j xs h1 loc2.ptrs s.start hev1.nodup hev1.below hj1 hle2
    have hEv : Evolves h (fillRange h1 j loc2.ptrs s.start xs).1 := hev1.trans hfEv
    refine ⟨(fillRange h1 j loc2.ptrs s.start xs).1,
      ⟨(fillRange h1 j loc2.ptrs s.start xs).2, loc2.chunkPivot, loc2.lastChunk⟩, ?_, ?_⟩
    · rw [hrun, hsc, except_bind_ok]
    · have hpt : ∀ q : Nat,
          Option.map (derefAddr (fillRange h1 j loc2.ptrs s.start xs).1) (loc.ptrs.get? q) =
          (collectVals h loc).get? q := by
        intro q
        unfold collectVals
        rw [List.get?_map]
        cases hg : loc.ptrs.get? q with
        | none => rfl
        | some a =>
            show some _ = some _
            rw [(hEv.pres a (hl.1 a (List.get?_mem hg))).2]
      have hF2len : (fillRange h1 j loc2.ptrs s.start xs).2.length =
          loc.ptrs.length + xs.length - s.numSteps := by
        rw [hfLen, hlocP, hP1len]
      have hMlen : (collectVals h loc).length = loc.ptrs.length := by
        unfold collectVals
        rw [List.length_map]
      have htakelen : ((collectVals h loc).take s.start).length = s.start := by
        rw [List.length_take]
        omega
      have hABlen : ((collectVals h loc).take s.start ++ xs.map some).length =
          s.start + xs.length := by
        rw [List.length_append, htakelen, List.length_map]
      apply List.ext_get?
      intro n
      show (List.map (derefAddr (fillRange h1 j loc2.ptrs s.start xs).1)
          (fillRange h1 j loc2.ptrs s.start xs).2).get? n = _
      rw [List.get?_map]
      have hfL2 : ∀ p, p < s.start → loc2.ptrs.get? p = loc.ptrs.get? p := by
        intro p hp
        rw [hlocP]
        exact hfL p hp
      have hfR2 : ∀ p, s.start + xs.length ≤ p →
          loc2.ptrs.get? p = loc.ptrs.get? (p - xs.length + s.numSteps) := by
        intro p hp
        rw [hlocP]
        exact hfR p hp
      rcases lt_or_le n s.start with hn | hn
      · rw [hfFrame n (Or.inl hn), hfL2 n hn,
          List.get?_append (by rw [hABlen]; omega),
          List.get?_append (by rw [htakelen]; omega), List.get?_take hn]
        exact hpt n
      · rcases lt_or_le n (s.start + xs.length) with hn2 | hn2
        · have hklt : n - s.start < xs.length := by omega
          have hnlt : n < (fillRange h1 j loc2.ptrs s.start xs).2.length := by
            rw [hF2len]
            omega
          have hsome : (fillRange h1 j loc2.ptrs s.start xs).2.get? n =
              some ((fillRange h1 j loc2.ptrs s.start xs).2.getD n nullAddr) := by
            rw [List.getD_eq_get?, List.get?_eq_get hnlt]
            rfl
          rw [hsome]
          have hval := hfVals (n - s.start) hklt
          have hk : s.start + (n - s.start) = n := by omega
          rw [hk] at hval
          rw [List.get?_append (by rw [hABlen]; omega),
            List.get?_append_right (by rw [htakelen]; omega), htakelen,
            List.get?_map, List.get?_eq_get hklt]
          exact congrArg some hval
        · rw [hfFrame n (Or.inr hn2), hfR2 n hn2,
            List.get?_append_right (by rw [hABlen]; omega), hABlen,
            List.get?_drop]
          have hidx : s.start + s.numSteps + (n - (s.start + xs.length)) =
              n - xs.length + s.numSteps := by
            omega
          rw [hidx]
          exact hpt _

/-- C4 witness: the claim's example — `[1,2,3,4,5]` after
`set_slice(0, 1, 1, [10,20,30,40])` observes
`[10,20,30,40,2,3,4,5]`. -/
theorem c4_setitem_unit_step_witness :
    ∃ h2 loc2, setitem_slice (fromList ([1, 2, 3, 4, 5] : List Int)).1
        (fromList ([1, 2, 3, 4, 5] : List Int)).2
        ⟨some 0, some 1, some 1⟩ ([10, 20, 30, 40] : List Int) = .ok (h2, loc2) ∧
      collectVals h2 loc2 =
        [some 10, some 20, some 30, some 40, some 2, some 3, some 4, some 5] := by
  obtain ⟨h2, loc2, he, hv⟩ := c4_setitem_unit_step Int
    (fromList ([1, 2, 3, 4, 5] : List Int)).1 (fromList ([1, 2, 3, 4, 5] : List Int)).2
    (by decide) (by decide) ⟨some 0, some 1, some 1⟩ [10, 20, 30, 40]
    ⟨0, 1, 1⟩ (by rfl) (by decide) rfl
  refine ⟨h2, loc2, he, ?_⟩
  rw [hv]
  rfl

/-- C6 witness: deleting the slice `[0:5:2]` from a five-element table
keeps exactly positions `1` and `3`, matching the selected-position
characterization at `start = 0`, `count = 3`, `step = 2`. -/
theorem c6_delete_slice_removes_selected_witness :
    delitem_ptrs ⟨0, 3, 2⟩ ([10, 20, 30, 40, 50] : List Int) = [20, 40] ∧
    delitem_ptrs ⟨0, 3, 2⟩ ([10, 20, 30, 40, 50] : List Int) =
      (List.range ([10, 20, 30, 40, 50] : List Int).length).filterMap
        (fun (i : Nat) => if (List.range (SliceNative.numSteps ⟨0, 3, 2⟩)).any
            (fun k => (i : Int) == toI64 (SliceNative.start ⟨0, 3, 2⟩) +
              (k : Int) * SliceNative.step ⟨0, 3, 2⟩) then none
          else ([10, 20, 30, 40, 50] : List Int).get? i) :=
  ⟨by rfl, (c6_delete_slice_removes_selected Int [10, 20, 30, 40, 50]
      ⟨some 0, some 5, some 2⟩ ⟨0, 3, 2⟩ (by rfl) (by decide)).2.2⟩

/-- C7 witness: `a = [1,2,3]`, `b = a.copy()`, `b.setitem(0, 9)` leaves
every observed element of `a` unchanged, changes no handle of `b` but the
one at position `0`, and makes that handle observe `9`. -/
theorem c7_shallow_copy_setitem_frame_witness :
    ∃ h2 bloc, setitem_index exVec.1 (copyLoc exVec.2) 0 9 = .ok (h2, bloc) ∧
      collectVals h2 exVec.2 = collectVals exVec.1 exVec.2 ∧
      bloc.ptrs.length = exVec.2.ptrs.length ∧
      (∀ q, q ≠ 0 → bloc.ptrs.get? q = exVec.2.ptrs.get? q) ∧
      (∀ q, q ≠ 0 → (collectVals h2 bloc).get? q = (collectVals exVec.1 exVec.2).get? q) ∧
      derefAddr h2 (bloc.ptrs.getD 0 nullAddr) = some 9 :=
  c7_shallow_copy_setitem_frame Int exVec.1 exVec.2 (by decide) (by decide) 0 9 0 (by rfl)

/-- C8 witness: the totality law applied at the concrete distinct
sequences `[1,2]` and `[1,3]` over `Int`. -/
theorem c8_comparison_laws_witness :
    pyvec_lt ([1, 2] : List Int) [1, 3] = true ∨ pyvec_lt ([1, 3] : List Int) [1, 2] = true :=
  (c8_comparison_laws Int).2.2.2.2.2.2 [1, 2] [1, 3] (by decide)

/-- What the strided overwrite loop does when every target position of the
arithmetic progression `start, start+step, …` is a real table index: it
evolves the heap by pushes into chunk `j`, keeps the chunk count and the
table length, leaves every handle off the progression untouched, and makes
the handle at `start + k*step` observe the `k`-th pushed value. -/
theorem fillStride_spec (j : Nat) {step : Int} (hstep0 : step ≠ 0) :
    ∀ (xs : List α) (h : Heap α) (ptrs : List Addr) (stI : Int),
      NodupIds h → IdsBelow h → j < h.resources.length →
      ptrs.length < 2 ^ 61 →
      (∀ k, k < xs.length → 0 ≤ stI + (k : Int) * step ∧
        stI + (k : Int) * step < (ptrs.length : Int)) →
      Evolves h (fillStride h j (toU64 stI) step xs ptrs).1 ∧
      (fillStride h j (toU64 stI) step xs ptrs).1.resources.length = h.resources.length ∧
      (fillStride h j (toU64 stI) step xs ptrs).2.length = ptrs.length ∧
      (∀ q : Nat, (∀ k, k < xs.length → (q : Int) ≠ stI + (k : Int) * step) →
          (fillStride h j (toU64 stI) step xs ptrs).2.get? q = ptrs.get? q) ∧
      (∀ k, (hk : k < xs.length) →
          derefAddr (fillStride h j (toU64 stI) step xs ptrs).1
              ((fillStride h j (toU64 stI) step xs ptrs).2.getD
                (stI + (k : Int) * step).toNat nullAddr) =
            some (xs.get ⟨k, hk⟩))
  | [], h, ptrs, stI, hn, hb, _, _, _ =>
      ⟨Evolves.refl hn hb, rfl, rfl, fun _ _ => rfl, fun k hk => absurd hk (by simp)⟩
  | x :: xs, h, ptrs, stI, hn, hb, hj, hlen, hrange => by
      have h00 := hrange 0 (by simp)
      have h0 : 0 ≤ stI := by
        have := h00.1
        simpa using this
      have hsl : stI < (ptrs.length : Int) := by
        have := h00.2
        simpa using this
      have hU : stI < (U64 : Int) := by
        unfold U64
        push_cast
        omega
      have hpiv : toU64 stI = stI.toNat := toU64_of_nonneg h0 hU
      have hstepEq : fillStride h j (toU64 stI) step (x :: xs) ptrs =
          fillStride (heapPush h j x).1 j (toU64 (((toU64 stI : Nat) : Int) + step)) step xs
            (ptrs.set (toU64 stI) (heapPush h j x).2) := rfl
      have hpiv2 : toU64 (((toU64 stI : Nat) : Int) + step) = toU64 (stI + step) := by
        rw [hpiv, Int.toNat_of_nonneg h0]
      have hn1 : NodupIds (heapPush h j x).1 := heapPush_nodup hn j x
      have hb1 : IdsBelow (heapPush h j x).1 := heapPush_below hb j x
      have hj1 : j < (heapPush h j x).1.resources.length := by
        rw [heapPush_length]; exact hj
      have hlen1 : (ptrs.set stI.toNat (heapPush h j x).2).length < 2 ^ 61 := by
        rw [List.length_set]; exact hlen
      have harith : ∀ k : Nat, stI + step + (k : Int) * step =
          stI + ((k + 1 : Nat) : Int) * step := by
        intro k
        push_cast
        ring
      have hrange1 : ∀ k, k < xs.length → 0 ≤ stI + step + (k : Int) * step ∧
          stI + step + (k : Int) * step <
            ((ptrs.set stI.toNat (heapPush h j x).2).length : Int) := by
        intro k hk
        rw [List.length_set, harith k]
        exact hrange (k + 1) (by simpa using Nat.succ_lt_succ hk)
      obtain ⟨ihEv, ihRes, ihLen, ihFrame, ihVals⟩ :=
        fillStride_spec j hstep0 xs (heapPush h j x).1
          (ptrs.set stI.toNat (heapPush h j x).2) (stI + step) hn1 hb1 hj1 hlen1 hrange1
      rw [hstepEq, hpiv2, hpiv]
      refine ⟨?_, ?_, ?_, ?_, ?_⟩
      · exact (heapPush_evolves hn hb j x).trans ihEv
      · rw [ihRes, heapPush_length]
      · rw [ihLen, List.length_set]
      · intro q hq
        have hq1 : ∀ k, k < xs.length → (q : Int) ≠ stI + step + (k : Int) * step := by
          intro k hk
          rw [harith k]
          exact hq (k + 1) (by simpa using Nat.succ_lt_succ hk)
        have hq0 : stI.toNat ≠ q := by
          have := hq 0 (by simp)
          simp only [Nat.cast_zero, zero_mul, add_zero] at this
          omega
        rw [ihFrame q hq1, List.get?_set_ne _ _ hq0]
      · intro k hk
        cases k with
        | zero =>
            have hposlt : stI.toNat < ptrs.length := by omega
            have hq1 : ∀ k, k < xs.length →
                ((stI.toNat : Nat) : Int) ≠ stI + step + (k : Int) * step := by
              intro k hk2 heq
              rw [Int.toNat_of_nonneg h0] at heq
              have h2 : (k : Int) * step = -step := by linarith
              have h3 : ((k : Int) + 1) * step = 0 := by
                calc ((k : Int) + 1) * step = (k : Int) * step + step := by ring
                _ = 0 := by rw [h2]; ring
              rcases mul_eq_zero.mp h3 with h4 | h4
              · have h5 : (0 : Int) ≤ (k : Int) := Int.natCast_nonneg k
                omega
              · exact hstep0 h4
            have hpos0 : (stI + ((0 : Nat) : Int) * step).toNat = stI.toNat := by
              simp
            have hget : (fillStride (heapPush h j x).1 j (toU64 (stI + step)) step xs
                (ptrs.set stI.toNat (heapPush h j x).2)).2.get? stI.toNat =
                some (heapPush h j x).2 := by
              rw [ihFrame stI.toNat hq1, List.get?_set_eq, List.get?_eq_get hposlt]
              rfl
            have hnew : derefAddr (heapPush h j x).1 (heapPush h j x).2 = some x :=
              (heapPush_new hn x hj).1
            have hlive : liveAddr (heapPush h j x).1 (heapPush h j x).2 :=
              liveAddr_of_deref hnew
            rcases ihEv.pres _ hlive with ⟨_, hder⟩
            rw [hpos0]
            simp only [List.getD_eq_get?, hget, Option.getD_some]
            rw [hder, hnew]
            rfl
        | succ k' =>
            have hk' : k' < xs.length := by
              simpa using Nat.lt_of_succ_lt_succ hk
            have hval := ihVals k' hk'
            rw [harith k'] at hval
            simpa using hval

/-- C5 (amended): with a normalized slice of `count` selected positions,
`step != 1`, and a NON-EMPTY replacement sequence, `setitem` raises
`invalid_argument` exactly when the sequence length differs from `count`;
on equal lengths (the slice's arithmetic progression lying inside the
table) it succeeds, overwrites the handles at `start, start + step, …`
with freshly allocated copies of the sequence's elements in order, and
leaves every other position's observed value unchanged.  The claim's
"if and only if" fails for the EMPTY sequence, which the code routes to
`delitem` before the length check — see the counterexample theorem. -/
theorem c5_setitem_stride_length_check (α : Type) (h : Heap α) (loc : Loc)
    (hw : HeapWF h) (hl : LocWF h loc) (t : PySlice) (xs : List α) (s : SliceNative)
    (hs : build_slice t loc.ptrs.length = .ok s) (hlen : loc.ptrs.length < 2 ^ 61)
    (hstep1 : s.step ≠ 1) (hxs : xs ≠ []) :
    (setitem_slice h loc t xs = .error .invalidArgument ↔ xs.length ≠ s.numSteps) ∧
    (xs.length = s.numSteps →
      (∀ k, k < xs.length → 0 ≤ toI64 s.start + (k : Int) * s.step ∧
        toI64 s.start + (k : Int) * s.step < (loc.ptrs.length : Int)) →
      ∃ h2 loc2, setitem_slice h loc t xs = .ok (h2, loc2) ∧
        loc2.ptrs.length = loc.ptrs.length ∧
        (∀ q : Nat, (∀ k, k < xs.length → (q : Int) ≠ toI64 s.start + (k : Int) * s.step) →
          (collectVals h2 loc2).get? q = (collectVals h loc).get? q) ∧
        (∀ k, (hk : k < xs.length) →
          (collectVals h2 loc2).get? (toI64 s.start + (k : Int) * s.step).toNat =
            some (some (xs.get ⟨k, hk⟩)))) := by
  obtain ⟨hs0, st0, hst0a, hst0b, hst0c, hcountB⟩ := build_slice_ok_facts hs
  have hxlen : xs.length ≠ 0 := fun h0 => hxs (List.length_eq_zero.mp h0)
  have hstI : toI64 s.start = st0 := by
    rw [hst0a]
    exact toI64_toU64 (by omega) (by omega)
  have hstart_eq : s.start = toU64 (toI64 s.start) := by
    rw [hstI, ← hst0a]
  constructor
  · constructor
    · intro herr heq
      obtain ⟨h1, loc1, j, hsc, _, _, _, _⟩ :=
        suitable_chunk_spec h loc s.numSteps (by omega)
          (NodupIds_of_HeapWF hw) (IdsBelow_of_HeapWF hw)
      have hok : setitem_slice h loc t xs =
          .ok ((fillStride h1 j s.start s.step xs loc1.ptrs).1,
            ⟨(fillStride h1 j s.start s.step xs loc1.ptrs).2,
              loc1.chunkPivot, loc1.lastChunk⟩) := by
        unfold setitem_slice
        rw [hs, except_bind_ok, if_neg hxlen, if_neg hstep1, if_pos heq.symm, hsc,
          except_bind_ok]
      rw [hok] at herr
      exact Except.noConfusion herr
    · intro hne
      unfold setitem_slice
      rw [hs, except_bind_ok, if_neg hxlen, if_neg hstep1,
        if_neg (fun hc => hne hc.symm)]
  · intro heq hrange
    obtain ⟨h1, loc1, j, hsc, hev1, hj1, hptrs1, _⟩ :=
      suitable_chunk_spec h loc s.numSteps (by omega)
        (NodupIds_of_HeapWF hw) (IdsBelow_of_HeapWF hw)
    have hlen1 : loc1.ptrs.length < 2 ^ 61 := by
      rw [hptrs1]; exact hlen
    have hrange1 : ∀ k, k < xs.length → 0 ≤ toI64 s.start + (k : Int) * s.step ∧
        toI64 s.start + (k : Int) * s.step < (loc1.ptrs.length : Int) := by
      intro k hk
      rw [hptrs1]
      exact hrange k hk
    obtain ⟨hfEv, hfRes, hfLen, hfFrame, hfVals⟩ :=
      fillStride_spec j hs0 xs h1 loc1.ptrs (toI64 s.start)
        hev1.nodup hev1.below hj1 hlen1 hrange1
    have hok : setitem_slice h loc t xs =
        .ok ((fillStride h1 j s.start s.step xs loc1.ptrs).1,
          ⟨(fillStride h1 j s.start s.step xs loc1.ptrs).2,
            loc1.chunkPivot, loc1.lastChunk⟩) := by
      unfold setitem_slice
      rw [hs, except_bind_ok, if_neg hxlen, if_neg hstep1, if_pos heq.symm, hsc,
        except_bind_ok]
    rw [hstart_eq] at hok
    have hEv : Evolves h
        (fillStride h1 j (toU64 (toI64 s.start)) s.step xs loc1.ptrs).1 :=
      hev1.trans hfEv
    have hpt : ∀ q : Nat,
        Option.map (derefAddr (fillStride h1 j (toU64 (toI64 s.start)) s.step xs
          loc1.ptrs).1) (loc.ptrs.get? q) = (collectVals h loc).get? q := by
      intro q
      unfold collectVals
      rw [List.get?_map]
      cases hg : loc.ptrs.get? q with
      | none => rfl
      | some a =>
          show some _ = some _
          rw [(hEv.pres a (hl.1 a (List.get?_mem hg))).2]
    refine ⟨(fillStride h1 j (toU64 (toI64 s.start)) s.step xs loc1.ptrs).1,
      ⟨(fillStride h1 j (toU64 (toI64 s.start)) s.step xs loc1.ptrs).2,
        loc1.chunkPivot, loc1.lastChunk⟩, hok, ?_, ?_, ?_⟩
    · show (fillStride h1 j (toU64 (toI64 s.start)) s.step xs loc1.ptrs).2.length =
        loc.ptrs.length
      rw [hfLen, hptrs1]
    · intro q hq
      show (List.map (derefAddr (fillStride h1 j (toU64 (toI64 s.start)) s.step xs
          loc1.ptrs).1)
        (fillStride h1 j (toU64 (toI64 s.start)) s.step xs loc1.ptrs).2).get? q = _
      rw [List.get?_map, hfFrame q hq]
      have hq' : loc1.ptrs.get? q = loc.ptrs.get? q := by rw [hptrs1]
      rw [hq']
      exact hpt q
    · intro k hk
      have hval := hfVals k hk
      show (List.map (derefAddr (fillStride h1 j (toU64 (toI64 s.start)) s.step xs
          loc1.ptrs).1)
        (fillStride h1 j (toU64 (toI64 s.start)) s.step xs
          loc1.ptrs).2).get? (toI64 s.start + (k : Int) * s.step).toNat = _
      rw [List.get?_map]
      have hlt : (toI64 s.start + (k : Int) * s.step).toNat <
          (fillStride h1 j (toU64 (toI64 s.start)) s.step xs loc1.ptrs).2.length := by
        rw [hfLen, hptrs1]
        have hr1 := (hrange k hk).1
        have hr2 := (hrange k hk).2
        omega
      have hsome : (fillStride h1 j (toU64 (toI64 s.start)) s.step xs
          loc1.ptrs).2.get? (toI64 s.start + (k : Int) * s.step).toNat =
          some ((fillStride h1 j (toU64 (toI64 s.start)) s.step xs
            loc1.ptrs).2.getD (toI64 s.start + (k : Int) * s.step).toNat nullAddr) := by
        rw [List.getD_eq_get?, List.get?_eq_get hlt]
        rfl
      rw [hsome]
      exact congrArg some hval

/-- C5 counterexample: on `[1, 2, 3]` the slice `[0:3:2]` normalizes to
`count = 2` selected positions, yet `set_slice(0, 3, 2, [])` with the
empty replacement sequence (length `0 ≠ 2`) does not raise
`invalid_argument`: the empty-sequence test precedes the length check and
delegates to `delitem`, deleting the selected positions and leaving the
observed contents `[2]`. -/
theorem c5_empty_sequence_skips_length_check :
    build_slice ⟨some 0, some 3, some 2⟩ ([1, 2, 3] : List Int).length =
      .ok ⟨0, 2, 2⟩ ∧
    ([] : List Int).length ≠ 2 ∧
    setitem_slice (fromList ([1, 2, 3] : List Int)).1 (fromList ([1, 2, 3] : List Int)).2
        ⟨some 0, some 3, some 2⟩ ([] : List Int) ≠ .error .invalidArgument ∧
    ∃ h2 loc2, setitem_slice (fromList ([1, 2, 3] : List Int)).1
        (fromList ([1, 2, 3] : List Int)).2 ⟨some 0, some 3, some 2⟩ ([] : List Int) =
        .ok (h2, loc2) ∧ collectVals h2 loc2 = [some 2] := by
  have hrun : setitem_slice (fromList ([1, 2, 3] : List Int)).1
      (fromList ([1, 2, 3] : List Int)).2 ⟨some 0, some 3, some 2⟩ ([] : List Int) =
      .ok ((fromList ([1, 2, 3] : List Int)).1, ⟨[⟨0, 1⟩], 0, none⟩) := by rfl
  refine ⟨by rfl, by decide, ?_, _, _, hrun, by rfl⟩
  rw [hrun]
  exact fun hc => Except.noConfusion hc

/-- C5 witness: `[1, 2, 3]` after `set_slice(0, 3, 2, [8, 9])` (length
`2 = count`) succeeds and observes `[8, 2, 9]` position by position, and
`set_slice(0, 3, 2, [8])` (length `1 ≠ 2`) raises `invalid_argument`. -/
theorem c5_setitem_stride_length_check_witness :
    (∃ h2 loc2, setitem_slice (fromList ([1, 2, 3] : List Int)).1
        (fromList ([1, 2, 3] : List Int)).2 ⟨some 0, some 3, some 2⟩
        ([8, 9] : List Int) = .ok (h2, loc2) ∧
      (collectVals h2 loc2).get? 0 = some (some 8) ∧
      (collectVals h2 loc2).get? 1 = some (some 2) ∧
      (collectVals h2 loc2).get? 2 = some (some 9)) ∧
    setitem_slice (fromList ([1, 2, 3] : List Int)).1
      (fromList ([1, 2, 3] : List Int)).2 ⟨some 0, some 3, some 2⟩
      ([8] : List Int) = .error .invalidArgument := by
  have hmain := c5_setitem_stride_length_check Int (fromList ([1, 2, 3] : List Int)).1
    (fromList ([1, 2, 3] : List Int)).2 (by decide) (by decide)
    ⟨some 0, some 3, some 2⟩ [8, 9] ⟨0, 2, 2⟩ (by rfl) (by decide) (by decide) (by decide)
  obtain ⟨h2, loc2, he, _, hframe, hvals⟩ := hmain.2 rfl (by decide)
  refine ⟨⟨h2, loc2, he, ?_, ?_, ?_⟩, ?_⟩
  · exact hvals 0 (by decide)
  · have hfr := hframe 1 (by decide)
    rw [hfr]
    rfl
  · exact hvals 1 (by decide)
  · have := (c5_setitem_stride_length_check Int (fromList ([1, 2, 3] : List Int)).1
      (fromList ([1, 2, 3] : List Int)).2 (by decide) (by decide)
      ⟨some 0, some 3, some 2⟩ [8] ⟨0, 2, 2⟩ (by rfl) (by decide) (by decide)
      (by decide)).1.mpr (by decide)
    exact this

end PyvecModel
